import Mathlib

/-!
Verification development for the switchable-storage CRUD service
(FastAPI_TestTask).  The definitions below are a shallow embedding of
`app/schemas.py`, `app/repositories/{in_memory,sqlite,redis_repo}.py` and
`app/dependencies.py`:

* Python `float` prices are modelled as rationals (the code only ever
  compares prices, never does float arithmetic).
* Python strings are Lean `String`s; `str.lower` is `Char.toLower` mapped
  over the characters (the repository data and examples are ASCII).
* The SQLite table and the Redis keyspace are modelled by their contents;
  JSON (de)serialization in the Redis backend is a round-trip and is
  modelled as the identity on records.
* Pydantic's fields-set tracking (`model_dump(exclude_unset=True)`) is
  modelled by an explicit `descriptionSet` flag on the draft: `name` and
  `price` are required fields and hence always set, `description` is the
  only optional field of `ItemCreate`.
-/

/-! ## String utilities -/

/-- Python `s.lower()` (ASCII): lower-case every character. -/
def strLower (s : String) : String := ⟨s.data.map Char.toLower⟩

/-- Python's substring test `needle in hay`: some suffix of `hay`
starts with `needle`. -/
def containsSub (needle hay : List Char) : Bool :=
  hay.tails.any (fun t => needle.isPrefixOf t)

/-- Helper for the LIKE matcher: does `f` hold of some suffix of the list
(including the list itself and the empty suffix)? -/
def anyTail (f : List Char → Bool) : List Char → Bool
  | [] => f []
  | c :: cs => f (c :: cs) || anyTail f cs

/-- SQL `LIKE` pattern matching as implemented by SQLite: `%` matches any
(possibly empty) character sequence, `_` matches exactly one character,
every other pattern character matches itself.  (The repository never uses
an ESCAPE clause.) -/
def likeMatch : List Char → List Char → Bool
  | [], cs => cs.isEmpty
  | p :: ps, cs =>
    if p = '%' then anyTail (fun t => likeMatch ps t) cs
    else
      match cs with
      | [] => false
      | c :: cs2 => (p = '_' || p = c) && likeMatch ps cs2

/-! ## Data model (`app/schemas.py`) -/

/-- `ItemCreate`: the creation/update draft.  `descriptionSet` records
whether `description` was explicitly supplied (pydantic fields-set
tracking; it is the only field with a default, so the only one that can
be unset). -/
structure ItemCreate where
  name : String
  description : Option String
  price : ℚ
  descriptionSet : Bool
deriving DecidableEq

/-- `Item`: a stored/returned record (draft fields plus the id assigned
by the backend). -/
structure Item where
  id : ℕ
  name : String
  description : Option String
  price : ℚ
deriving DecidableEq

/-- `Item(id=..., **draft.model_dump())`: build a record from a draft and
an id (a plain `model_dump` emits every field, set or not). -/
def itemOfDraft (id : ℕ) (d : ItemCreate) : Item :=
  { id := id, name := d.name, description := d.description, price := d.price }

/-- `current.model_copy(update=draft.model_dump(exclude_unset=True))`:
overwrite the explicitly-set draft fields, keep the rest (`name` and
`price` are always set; `description` only when `descriptionSet`).  The
id is not a draft field, so it is kept. -/
def mergeDraft (current : Item) (d : ItemCreate) : Item :=
  { id := current.id
    name := d.name
    description := if d.descriptionSet then d.description else current.description
    price := d.price }

/-! ## Application-side filters (in-memory and Redis `list_items`)

`if name_filter and name_filter.lower() not in item.name.lower()` —
Python truthiness of `Optional[str]` is false exactly on `None` and `""`.
`if min_price and item.price < min_price` — truthiness of
`Optional[float]` is false exactly on `None` and `0`. -/

/-- The name check of `list_items`: true unless a truthy filter fails the
case-insensitive substring test. -/
def matchName : Option String → String → Bool
  | none, _ => true
  | some f, name =>
    if f = "" then true
    else containsSub (strLower f).data (strLower name).data

/-- The price check of `list_items`: true unless a truthy minimum price
exceeds the item's price. -/
def matchPrice : Option ℚ → ℚ → Bool
  | none, _ => true
  | some m, price => if m = 0 then true else !decide (price < m)

/-! ## In-memory backend (`app/repositories/in_memory.py`)

The Python `dict` is modelled as an insertion-ordered association list;
`dictSet` mirrors `d[k] = v` (replace in place if the key exists, else
append), `dictDel` mirrors `del d[k]`, `dictGet` mirrors `d.get(k)`. -/

def dictGet (l : List (ℕ × Item)) (k : ℕ) : Option Item :=
  (l.find? (fun p => p.1 == k)).map (fun p => p.2)

def dictHas (l : List (ℕ × Item)) (k : ℕ) : Bool :=
  l.any (fun p => p.1 == k)

def dictSet (l : List (ℕ × Item)) (k : ℕ) (v : Item) : List (ℕ × Item) :=
  if dictHas l k then l.map (fun p => if p.1 == k then (k, v) else p)
  else l ++ [(k, v)]

def dictDel (l : List (ℕ × Item)) (k : ℕ) : List (ℕ × Item) :=
  l.filter (fun p => !(p.1 == k))

/-- `InMemoryRepository.__init__`: an items dict plus the next-id
counter. -/
structure InMemoryRepository where
  items : List (ℕ × Item)
  next_id : ℕ
deriving DecidableEq

namespace InMemoryRepository

/-- Fresh repository: empty dict, counter at 1. -/
def init : InMemoryRepository := { items := [], next_id := 1 }

/-- `get_item`: `self.items.get(item_id)`. -/
def get_item (r : InMemoryRepository) (item_id : ℕ) : Option Item :=
  dictGet r.items item_id

/-- `list_items`: scan the dict values, keep items passing both checks. -/
def list_items (r : InMemoryRepository) (name_filter : Option String)
    (min_price : Option ℚ) : List Item :=
  (r.items.map (fun p => p.2)).filter
    (fun item => matchName name_filter item.name && matchPrice min_price item.price)

/-- `create_item`: store `Item(id=self.next_id, **draft.model_dump())`
under the current counter, then bump the counter. -/
def create_item (r : InMemoryRepository) (item_create : ItemCreate) :
    Item × InMemoryRepository :=
  let item := itemOfDraft r.next_id item_create
  (item, { items := dictSet r.items r.next_id item, next_id := r.next_id + 1 })

/-- `update_item`: if the id is a key, merge the explicitly-set draft
fields onto the stored record and store the merge; else return `None`
(`dictGet` is `some` exactly when `item_id in self.items`). -/
def update_item (r : InMemoryRepository) (item_id : ℕ) (item_update : ItemCreate) :
    Option Item × InMemoryRepository :=
  match dictGet r.items item_id with
  | some current_item =>
    let updated_item := mergeDraft current_item item_update
    (some updated_item, { r with items := dictSet r.items item_id updated_item })
  | none => (none, r)

/-- `delete_item`: remove the key if present, report whether it was. -/
def delete_item (r : InMemoryRepository) (item_id : ℕ) :
    Bool × InMemoryRepository :=
  if dictHas r.items item_id then (true, { r with items := dictDel r.items item_id })
  else (false, r)

end InMemoryRepository

/-! ## SQLite backend (`app/repositories/sqlite.py`, `app/database.py`)

The state is the contents of the `items` table (rows in insertion order)
plus the `AUTOINCREMENT` sequence for its primary key: SQLite hands out
`seq + 1` on every insert and never reuses a value, even after the row
with the largest id is deleted. -/

structure SQLiteRepository where
  rows : List Item
  seq : ℕ
deriving DecidableEq

/-- Ordering used by `ORDER BY id` (ascending). -/
def rowLe (a b : Item) : Prop := a.id ≤ b.id

instance : DecidableRel rowLe := fun a b => inferInstanceAs (Decidable (a.id ≤ b.id))

instance : IsTotal Item rowLe := ⟨fun a b => Nat.le_total a.id b.id⟩

instance : IsTrans Item rowLe := ⟨fun _ _ _ => Nat.le_trans⟩

/-- The LIKE pattern built for the name filter: `LOWER('%' + f + '%')`. -/
def likePattern (f : String) : List Char := (strLower ("%" ++ f ++ "%")).data

/-- The `WHERE` clause of `SQLiteRepository.list_items`: a clause is only
added when the corresponding Python value is truthy (`if name_filter:`,
`if min_price:`), hence the `""`/`0` guards. -/
def sqliteRowOk (name_filter : Option String) (min_price : Option ℚ) (row : Item) : Bool :=
  (match name_filter with
   | none => true
   | some f => if f = "" then true else likeMatch (likePattern f) (strLower row.name).data)
  &&
  (match min_price with
   | none => true
   | some m => if m = 0 then true else decide (m ≤ row.price))

namespace SQLiteRepository

/-- Fresh database: empty table, sequence at 0 (first insert gets id 1). -/
def init : SQLiteRepository := { rows := [], seq := 0 }

/-- `get_item`: `SELECT ... WHERE id = ?`, first matching row. -/
def get_item (db : SQLiteRepository) (item_id : ℕ) : Option Item :=
  db.rows.find? (fun row => row.id == item_id)

/-- `list_items`: `SELECT ... WHERE <filters> ORDER BY id`. -/
def list_items (db : SQLiteRepository) (name_filter : Option String)
    (min_price : Option ℚ) : List Item :=
  List.insertionSort rowLe (db.rows.filter (sqliteRowOk name_filter min_price))

/-- `create_item`: `INSERT` a new row; `cursor.lastrowid` is the fresh
AUTOINCREMENT value `seq + 1`. -/
def create_item (db : SQLiteRepository) (item_create : ItemCreate) :
    Item × SQLiteRepository :=
  let new_id := db.seq + 1
  let row := itemOfDraft new_id item_create
  (row, { rows := db.rows ++ [row], seq := new_id })

/-- `update_item`: `UPDATE items SET name = ?, description = ?, price = ?
WHERE id = ?` — a full-column overwrite of every matching row — then, if
`cursor.rowcount > 0`, re-read the row with `get_item`; otherwise return
`None`. -/
def update_item (db : SQLiteRepository) (item_id : ℕ) (item_update : ItemCreate) :
    Option Item × SQLiteRepository :=
  let rowcount := (db.rows.filter (fun row => row.id == item_id)).length
  let newRows := db.rows.map (fun row =>
    if row.id == item_id then
      { id := row.id, name := item_update.name,
        description := item_update.description, price := item_update.price }
    else row)
  let db2 : SQLiteRepository := { rows := newRows, seq := db.seq }
  if rowcount > 0 then (get_item db2 item_id, db2) else (none, db2)

/-- `delete_item`: `DELETE ... WHERE id = ?`; the returned boolean is
`cursor.rowcount > 0`. -/
def delete_item (db : SQLiteRepository) (item_id : ℕ) :
    Bool × SQLiteRepository :=
  let rowcount := (db.rows.filter (fun row => row.id == item_id)).length
  (decide (rowcount > 0),
   { rows := db.rows.filter (fun row => !(row.id == item_id)), seq := db.seq })

end SQLiteRepository

/-! ## Redis backend (`app/repositories/redis_repo.py`)

The state is the keyspace: the `item:<id>` keys (an association list, in
scan order) and the `next_item_id` counter key (0 when the key is
absent).  Values are stored as JSON; serialization round-trips, so values
are modelled as the records themselves. -/

structure RedisRepository where
  store : List (ℕ × Item)
  next_item_id : ℕ
deriving DecidableEq

namespace RedisRepository

/-- Fresh keyspace: no items, counter key absent (INCR starts from 0). -/
def init : RedisRepository := { store := [], next_item_id := 0 }

/-- `_get_next_id`: `INCR next_item_id` — increment, return new value. -/
def _get_next_id (r : RedisRepository) : ℕ × RedisRepository :=
  (r.next_item_id + 1, { r with next_item_id := r.next_item_id + 1 })

/-- `get_item`: `GET item:<id>` plus deserialization. -/
def get_item (r : RedisRepository) (item_id : ℕ) : Option Item :=
  dictGet r.store item_id

/-- `list_items`: scan all `item:*` keys, bulk-fetch, deserialize, apply
the same in-application filters as the in-memory backend. -/
def list_items (r : RedisRepository) (name_filter : Option String)
    (min_price : Option ℚ) : List Item :=
  (r.store.map (fun p => p.2)).filter
    (fun item => matchName name_filter item.name && matchPrice min_price item.price)

/-- `create_item`: take the next counter value, `SET item:<id>` to the
serialized record. -/
def create_item (r : RedisRepository) (item_create : ItemCreate) :
    Item × RedisRepository :=
  let next := _get_next_id r
  let item := itemOfDraft next.1 item_create
  (item, { next.2 with store := dictSet next.2.store next.1 item })

/-- `update_item`: read-modify-write — fetch, merge the explicitly-set
draft fields, `SET` the merged record back; `None` when the key is
absent. -/
def update_item (r : RedisRepository) (item_id : ℕ) (item_update : ItemCreate) :
    Option Item × RedisRepository :=
  match get_item r item_id with
  | some existing_item =>
    let updated_item := mergeDraft existing_item item_update
    (some updated_item, { r with store := dictSet r.store item_id updated_item })
  | none => (none, r)

/-- `delete_item`: `DEL item:<id>`; true iff a key was removed. -/
def delete_item (r : RedisRepository) (item_id : ℕ) :
    Bool × RedisRepository :=
  (dictHas r.store item_id, { r with store := dictDel r.store item_id })

end RedisRepository

/-! ## Backend selector (`app/dependencies.py`, `app/config.py`) -/

/-- The three recognized backend variants (`StorageType` in config.py). -/
inductive RepoKind where
  | in_memory
  | sqlite
  | redis
deriving DecidableEq

/-- `get_repository`: dispatch on the configured storage-type value in
the order of the `if`/`elif` chain; any unrecognized value raises
`ValueError` instead of falling back to a working backend. -/
def get_repository (storage_type : String) : Except String RepoKind :=
  if storage_type = "in_memory" then .ok .in_memory
  else if storage_type = "sqlite" then .ok .sqlite
  else if storage_type = "redis" then .ok .redis
  else .error ("Unknown storage type: " ++ storage_type)

/-! ## Spec-side predicates (for stating the contract, §4.1 of the spec) -/

/-- The spec's name filter: the item's name contains the filter string
case-insensitively as a substring (no constraint when absent). -/
def NameFilterOk (name_filter : Option String) (item : Item) : Prop :=
  ∀ f, name_filter = some f →
    containsSub (strLower f).data (strLower item.name).data = true

/-- The spec's minimum-price filter: `price >= minPrice` (no constraint
when absent). -/
def MinPriceOk (min_price : Option ℚ) (item : Item) : Prop :=
  ∀ m, min_price = some m → m ≤ item.price

/-- The (lower-cased) filter string contains no SQL LIKE wildcard. -/
def NoLikeWildcards (f : String) : Prop :=
  ∀ c ∈ (strLower f).data, ¬(c = '%' ∨ c = '_')

/-- Presence of an id in the SQLite table. -/
def sqlHas (rows : List Item) (item_id : ℕ) : Bool :=
  rows.any (fun row => row.id == item_id)

/-! ## Operation traces

A backend instance's lifetime is a sequence of mutating contract calls
starting from the fresh instance; `createdIds` lists the ids handed out
by the `create` calls of a trace, in order. -/

inductive Op where
  | create (draft : ItemCreate)
  | update (item_id : ℕ) (draft : ItemCreate)
  | delete (item_id : ℕ)

def InMemoryRepository.applyOp (r : InMemoryRepository) : Op → InMemoryRepository
  | .create d => (r.create_item d).2
  | .update i d => (r.update_item i d).2
  | .delete i => (r.delete_item i).2

def InMemoryRepository.runOps (r : InMemoryRepository) (ops : List Op) :
    InMemoryRepository :=
  ops.foldl InMemoryRepository.applyOp r

def InMemoryRepository.createdIds (r : InMemoryRepository) : List Op → List ℕ
  | [] => []
  | op :: rest =>
    (match op with | .create _ => [r.next_id] | _ => []) ++
      (r.applyOp op).createdIds rest

def SQLiteRepository.applyOp (db : SQLiteRepository) : Op → SQLiteRepository
  | .create d => (db.create_item d).2
  | .update i d => (db.update_item i d).2
  | .delete i => (db.delete_item i).2

def SQLiteRepository.runOps (db : SQLiteRepository) (ops : List Op) :
    SQLiteRepository :=
  ops.foldl SQLiteRepository.applyOp db

def SQLiteRepository.createdIds (db : SQLiteRepository) : List Op → List ℕ
  | [] => []
  | op :: rest =>
    (match op with | .create _ => [db.seq + 1] | _ => []) ++
      (db.applyOp op).createdIds rest

def RedisRepository.applyOp (r : RedisRepository) : Op → RedisRepository
  | .create d => (r.create_item d).2
  | .update i d => (r.update_item i d).2
  | .delete i => (r.delete_item i).2

def RedisRepository.runOps (r : RedisRepository) (ops : List Op) :
    RedisRepository :=
  ops.foldl RedisRepository.applyOp r

def RedisRepository.createdIds (r : RedisRepository) : List Op → List ℕ
  | [] => []
  | op :: rest =>
    (match op with | .create _ => [r.next_item_id + 1] | _ => []) ++
      (r.applyOp op).createdIds rest

/-! ## Reachable-state invariants -/

/-- In-memory invariant: every dict entry stores a record whose id field
is its key, and every key is below the next-id counter. -/
def memInv (r : InMemoryRepository) : Prop :=
  ∀ p ∈ r.items, p.2.id = p.1 ∧ p.1 < r.next_id

/-- Redis invariant: every `item:<id>` key holds a record with that id,
and every id is at most the counter value. -/
def redisInv (r : RedisRepository) : Prop :=
  ∀ p ∈ r.store, p.2.id = p.1 ∧ p.1 ≤ r.next_item_id

/-- SQLite invariant: every row id is at most the AUTOINCREMENT
sequence. -/
def sqlInv (db : SQLiteRepository) : Prop :=
  ∀ row ∈ db.rows, row.id ≤ db.seq

/-! ## Dictionary lemmas -/

theorem dictHas_iff (l : List (ℕ × Item)) (k : ℕ) :
    dictHas l k = true ↔ ∃ p ∈ l, p.1 = k := by
  simp [dictHas, List.any_eq_true]

theorem dictGet_none_iff (l : List (ℕ × Item)) (k : ℕ) :
    dictGet l k = none ↔ dictHas l k = false := by
  simp [dictGet, dictHas, Option.map_eq_none', List.find?_eq_none,
    List.any_eq_false]

theorem dictHas_of_dictGet_some {l : List (ℕ × Item)} {k : ℕ} {v : Item}
    (h : dictGet l k = some v) : dictHas l k = true := by
  cases hb : dictHas l k with
  | false => rw [(dictGet_none_iff l k).2 hb] at h; cases h
  | true => rfl

theorem find?_set_map (l : List (ℕ × Item)) (k : ℕ) (v : Item)
    (h : dictHas l k = true) :
    (l.map (fun p => if p.1 == k then (k, v) else p)).find? (fun p => p.1 == k)
      = some (k, v) := by
  induction l with
  | nil => simp [dictHas] at h
  | cons p t ih =>
    by_cases hp : p.1 = k
    · subst hp
      simp [List.find?_cons]
    · have ht : dictHas t k = true := by
        simp only [dictHas, List.any_cons] at h
        simpa [dictHas, hp] using h
      simpa [List.find?_cons, hp] using ih ht

theorem dictGet_dictSet_self (l : List (ℕ × Item)) (k : ℕ) (v : Item) :
    dictGet (dictSet l k v) k = some v := by
  by_cases h : dictHas l k
  · unfold dictGet dictSet
    rw [if_pos h, find?_set_map l k v h]
    rfl
  · have hnone : (l.find? (fun p => p.1 == k)) = none := by
      have h2 := (dictGet_none_iff l k).2 (by simpa using h)
      simpa [dictGet, Option.map_eq_none'] using h2
    simp [dictSet, h, dictGet, List.find?_append, hnone, List.find?_cons]

theorem dictGet_dictDel_self (l : List (ℕ × Item)) (k : ℕ) :
    dictGet (dictDel l k) k = none := by
  rw [dictGet_none_iff]
  simp [dictDel, dictHas, List.any_eq_false, List.mem_filter]

theorem dictHas_dictDel_self (l : List (ℕ × Item)) (k : ℕ) :
    dictHas (dictDel l k) k = false := by
  simp [dictDel, dictHas, List.any_eq_false, List.mem_filter]

theorem dictHas_of_dictHas_dictDel {l : List (ℕ × Item)} {k k2 : ℕ}
    (h : dictHas (dictDel l k) k2 = true) : dictHas l k2 = true := by
  rw [dictHas_iff] at h ⊢
  rcases h with ⟨p, hp, hk⟩
  exact ⟨p, (List.mem_filter.1 hp).1, hk⟩

theorem dictSet_map_fst_of_has {l : List (ℕ × Item)} {k : ℕ} (v : Item)
    (h : dictHas l k = true) :
    (dictSet l k v).map Prod.fst = l.map Prod.fst := by
  simp only [dictSet, h, if_pos, List.map_map]
  refine List.map_congr_left ?_
  intro p _
  by_cases hp : p.1 = k
  · simp [Function.comp, hp]
  · simp [Function.comp, hp]

theorem dictHas_eq_any_fst (l : List (ℕ × Item)) (k : ℕ) :
    dictHas l k = (l.map Prod.fst).any (fun x => x == k) := by
  induction l with
  | nil => rfl
  | cons p t ih =>
    simp only [dictHas, List.any_cons, List.map_cons] at ih ⊢
    rw [ih]

theorem dictHas_dictSet_of_has {l : List (ℕ × Item)} {k k2 : ℕ} {v : Item}
    (h : dictHas l k = true) :
    dictHas (dictSet l k v) k2 = dictHas l k2 := by
  rw [dictHas_eq_any_fst, dictHas_eq_any_fst, dictSet_map_fst_of_has v h]

theorem dictHas_dictSet_imp {l : List (ℕ × Item)} {n k : ℕ} {v : Item}
    (h : dictHas (dictSet l n v) k = true) :
    dictHas l k = true ∨ k = n := by
  by_cases hn : dictHas l n
  · rw [dictHas_dictSet_of_has hn] at h
    exact Or.inl h
  · simp only [dictSet, hn, if_neg, Bool.false_eq_true, not_false_iff] at h
    rw [dictHas_iff] at h
    rcases h with ⟨p, hp, hk⟩
    rcases List.mem_append.1 hp with hl | hr
    · exact Or.inl ((dictHas_iff l k).2 ⟨p, hl, hk⟩)
    · simp at hr
      subst hr
      exact Or.inr hk.symm

theorem dictHas_dictSet_absent {l : List (ℕ × Item)} {n k : ℕ} {v : Item}
    (hne : k ≠ n) (h : dictHas l k = false) :
    dictHas (dictSet l n v) k = false := by
  cases hb : dictHas (dictSet l n v) k with
  | false => rfl
  | true =>
    rcases dictHas_dictSet_imp hb with h1 | h2
    · rw [h1] at h; cases h
    · exact absurd h2 hne

/-! ## In-memory backend: invariant and trace lemmas -/

theorem anyCongr {α : Type} {p q : α → Bool} (l : List α)
    (h : ∀ x ∈ l, p x = q x) : l.any p = l.any q := by
  induction l with
  | nil => rfl
  | cons a t ih =>
    simp only [List.any_cons, h a (List.mem_cons_self a t)]
    rw [ih (fun x hx => h x (List.mem_cons.2 (Or.inr hx)))]

theorem not_dictHas_of_lt {l : List (ℕ × Item)} {n : ℕ}
    (h : ∀ p ∈ l, p.1 < n) : dictHas l n = false := by
  cases hb : dictHas l n with
  | false => rfl
  | true =>
    rcases (dictHas_iff l n).1 hb with ⟨p, hp, hk⟩
    exact absurd hk (Nat.ne_of_lt (h p hp))

theorem dictHas_dictDel_absent {l : List (ℕ × Item)} {i k : ℕ}
    (h : dictHas l k = false) : dictHas (dictDel l i) k = false := by
  cases hb : dictHas (dictDel l i) k with
  | false => rfl
  | true => rw [dictHas_of_dictHas_dictDel hb] at h; cases h

theorem memInv_init : memInv InMemoryRepository.init := by
  intro p hp
  simp [InMemoryRepository.init] at hp

theorem memInv_create {r : InMemoryRepository} (d : ItemCreate) (h : memInv r) :
    memInv (r.create_item d).2 := by
  have hno : dictHas r.items r.next_id = false :=
    not_dictHas_of_lt (fun p hp => (h p hp).2)
  intro p hp
  simp only [InMemoryRepository.create_item] at hp ⊢
  rw [dictSet, if_neg (by simp [hno])] at hp
  rcases List.mem_append.1 hp with hl | hr
  · exact ⟨(h p hl).1, Nat.lt_succ_of_lt (h p hl).2⟩
  · simp only [List.mem_singleton] at hr
    subst hr
    exact ⟨rfl, Nat.lt_succ_self _⟩

theorem dictGet_key_lt {r : InMemoryRepository} {i : ℕ} {cur : Item}
    (h : memInv r) (hg : dictGet r.items i = some cur) :
    cur.id = i ∧ i < r.next_id := by
  simp only [dictGet] at hg
  rcases Option.map_eq_some'.1 hg with ⟨pr, hfind, hcur⟩
  have hmem := List.mem_of_find?_eq_some hfind
  have hkey : pr.1 = i := by simpa using List.find?_some hfind
  have hinv := h pr hmem
  exact ⟨hcur ▸ (hkey ▸ hinv.1), hkey ▸ hinv.2⟩

theorem memInv_update {r : InMemoryRepository} (i : ℕ) (d : ItemCreate)
    (h : memInv r) : memInv (r.update_item i d).2 := by
  cases hg : dictGet r.items i with
  | none => simpa [InMemoryRepository.update_item, hg] using h
  | some cur =>
    have hhas := dictHas_of_dictGet_some hg
    rcases dictGet_key_lt h hg with ⟨hid, hlt⟩
    intro p hp
    simp only [InMemoryRepository.update_item, hg] at hp ⊢
    rw [dictSet, if_pos hhas] at hp
    rcases List.mem_map.1 hp with ⟨q, hq, hpq⟩
    by_cases hqi : q.1 = i
    · rw [if_pos (by simpa using hqi)] at hpq
      subst hpq
      refine ⟨?_, hlt⟩
      show (mergeDraft cur d).id = i
      rw [mergeDraft]
      exact hid
    · rw [if_neg (by simpa using hqi)] at hpq
      subst hpq
      exact h q hq

theorem memInv_delete {r : InMemoryRepository} (i : ℕ) (h : memInv r) :
    memInv (r.delete_item i).2 := by
  by_cases hb : dictHas r.items i = true
  · intro p hp
    simp only [InMemoryRepository.delete_item, hb, if_pos] at hp ⊢
    exact h p (List.mem_filter.1 hp).1
  · simpa [InMemoryRepository.delete_item, hb] using h

theorem memInv_applyOp {r : InMemoryRepository} (op : Op) (h : memInv r) :
    memInv (r.applyOp op) := by
  cases op with
  | create d => exact memInv_create d h
  | update i d => exact memInv_update i d h
  | delete i => exact memInv_delete i h

theorem memInv_runOps (ops : List Op) (r : InMemoryRepository) (h : memInv r) :
    memInv (r.runOps ops) := by
  induction ops generalizing r with
  | nil => exact h
  | cons op rest ih => exact ih (r.applyOp op) (memInv_applyOp op h)

theorem next_id_applyOp (r : InMemoryRepository) (op : Op) :
    r.next_id ≤ (r.applyOp op).next_id := by
  cases op with
  | create d =>
    simp only [InMemoryRepository.applyOp, InMemoryRepository.create_item]
    exact Nat.le_succ _
  | update i d =>
    cases hg : dictGet r.items i with
    | none => simp [InMemoryRepository.applyOp, InMemoryRepository.update_item, hg]
    | some cur => simp [InMemoryRepository.applyOp, InMemoryRepository.update_item, hg]
  | delete i =>
    by_cases hb : dictHas r.items i = true
    · simp [InMemoryRepository.applyOp, InMemoryRepository.delete_item, hb]
    · simp [InMemoryRepository.applyOp, InMemoryRepository.delete_item, hb]

theorem next_id_runOps (ops : List Op) (r : InMemoryRepository) :
    r.next_id ≤ (r.runOps ops).next_id := by
  induction ops generalizing r with
  | nil => exact Nat.le_refl _
  | cons op rest ih =>
    calc r.next_id ≤ (r.applyOp op).next_id := next_id_applyOp r op
    _ ≤ ((r.applyOp op).runOps rest).next_id := ih _

theorem createdIds_spec (ops : List Op) (r : InMemoryRepository) :
    (∀ x ∈ r.createdIds ops, r.next_id ≤ x ∧ x < (r.runOps ops).next_id) ∧
      (r.createdIds ops).Pairwise (· < ·) := by
  induction ops generalizing r with
  | nil => exact ⟨fun x hx => absurd hx (List.not_mem_nil x), List.Pairwise.nil⟩
  | cons op rest ih =>
    rcases ih (r.applyOp op) with ⟨ihb, ihp⟩
    cases op with
    | create d =>
      have hnext : (r.applyOp (Op.create d)).next_id = r.next_id + 1 := rfl
      constructor
      · intro x hx
        simp only [InMemoryRepository.createdIds, List.singleton_append,
          List.mem_cons] at hx
        rcases hx with hx1 | hx2
        · subst hx1
          refine ⟨Nat.le_refl _, ?_⟩
          have h1 : r.next_id + 1 ≤ ((r.applyOp (Op.create d)).runOps rest).next_id :=
            hnext ▸ next_id_runOps rest _
          exact Nat.lt_of_lt_of_le (Nat.lt_succ_self _) h1
        · rcases ihb x hx2 with ⟨hb1, hb2⟩
          rw [hnext] at hb1
          exact ⟨Nat.le_of_lt (Nat.lt_of_lt_of_le (Nat.lt_succ_self _) hb1), hb2⟩
      · simp only [InMemoryRepository.createdIds, List.singleton_append]
        refine List.pairwise_cons.2 ⟨?_, ihp⟩
        intro x hx
        have hb1 := (ihb x hx).1
        rw [hnext] at hb1
        exact Nat.lt_of_lt_of_le (Nat.lt_succ_self _) hb1
    | update i d =>
      refine ⟨fun x hx => ?_, ?_⟩
      · simp only [InMemoryRepository.createdIds, List.nil_append] at hx
        rcases ihb x hx with ⟨hb1, hb2⟩
        exact ⟨Nat.le_trans (next_id_applyOp r _) hb1, hb2⟩
      · simpa only [InMemoryRepository.createdIds, List.nil_append] using ihp
    | delete i =>
      refine ⟨fun x hx => ?_, ?_⟩
      · simp only [InMemoryRepository.createdIds, List.nil_append] at hx
        rcases ihb x hx with ⟨hb1, hb2⟩
        exact ⟨Nat.le_trans (next_id_applyOp r _) hb1, hb2⟩
      · simpa only [InMemoryRepository.createdIds, List.nil_append] using ihp

theorem has_runOps (ops : List Op) (r : InMemoryRepository) (k : ℕ)
    (h : dictHas (r.runOps ops).items k = true) :
    dictHas r.items k = true ∨ k ∈ r.createdIds ops := by
  induction ops generalizing r with
  | nil => exact Or.inl h
  | cons op rest ih =>
    rcases ih (r.applyOp op) h with h2 | h2
    · cases op with
      | create d =>
        have h3 : dictHas (dictSet r.items r.next_id (itemOfDraft r.next_id d)) k
            = true := h2
        rcases dictHas_dictSet_imp h3 with h4 | h4
        · exact Or.inl h4
        · right
          simp only [InMemoryRepository.createdIds, List.singleton_append]
          exact h4 ▸ List.mem_cons_self _ _
      | update i d =>
        cases hg : dictGet r.items i with
        | none =>
          left
          simpa [InMemoryRepository.applyOp, InMemoryRepository.update_item, hg]
            using h2
        | some cur =>
          have hhas := dictHas_of_dictGet_some hg
          left
          have h3 : dictHas (dictSet r.items i (mergeDraft cur d)) k = true := by
            simpa [InMemoryRepository.applyOp, InMemoryRepository.update_item, hg]
              using h2
          rw [dictHas_dictSet_of_has hhas] at h3
          exact h3
      | delete i =>
        by_cases hb : dictHas r.items i = true
        · left
          have h3 : dictHas (dictDel r.items i) k = true := by
            simpa [InMemoryRepository.applyOp, InMemoryRepository.delete_item, hb]
              using h2
          exact dictHas_of_dictHas_dictDel h3
        · left
          simpa [InMemoryRepository.applyOp, InMemoryRepository.delete_item, hb]
            using h2
    · right
      cases op with
      | create d =>
        simp only [InMemoryRepository.createdIds, List.singleton_append]
        exact List.mem_cons.2 (Or.inr h2)
      | update i d =>
        simpa only [InMemoryRepository.createdIds, List.nil_append] using h2
      | delete i =>
        simpa only [InMemoryRepository.createdIds, List.nil_append] using h2

theorem absent_stays (ops : List Op) (r : InMemoryRepository) (k : ℕ)
    (hk : k < r.next_id) (h : dictHas r.items k = false) :
    dictHas (r.runOps ops).items k = false := by
  induction ops generalizing r with
  | nil => exact h
  | cons op rest ih =>
    refine ih (r.applyOp op) (Nat.lt_of_lt_of_le hk (next_id_applyOp r op)) ?_
    cases op with
    | create d =>
      show dictHas (dictSet r.items r.next_id (itemOfDraft r.next_id d)) k = false
      exact dictHas_dictSet_absent (Nat.ne_of_lt hk) h
    | update i d =>
      cases hg : dictGet r.items i with
      | none =>
        simpa [InMemoryRepository.applyOp, InMemoryRepository.update_item, hg]
          using h
      | some cur =>
        have hhas := dictHas_of_dictGet_some hg
        have h4 : dictHas (dictSet r.items i (mergeDraft cur d)) k = false := by
          rw [dictHas_dictSet_of_has hhas]
          exact h
        simpa [InMemoryRepository.applyOp, InMemoryRepository.update_item, hg]
          using h4
    | delete i =>
      by_cases hb : dictHas r.items i = true
      · have h4 : dictHas (dictDel r.items i) k = false := dictHas_dictDel_absent h
        simpa [InMemoryRepository.applyOp, InMemoryRepository.delete_item, hb]
          using h4
      · simpa [InMemoryRepository.applyOp, InMemoryRepository.delete_item, hb]
          using h

/-! ## Redis backend: invariant and trace lemmas -/

theorem redisInv_init : redisInv RedisRepository.init := by
  intro p hp
  simp [RedisRepository.init] at hp

theorem redisInv_create {r : RedisRepository} (d : ItemCreate) (h : redisInv r) :
    redisInv (r.create_item d).2 := by
  have hno : dictHas r.store (r.next_item_id + 1) = false :=
    not_dictHas_of_lt (fun p hp => Nat.lt_succ_of_le (h p hp).2)
  intro p hp
  simp only [RedisRepository.create_item, RedisRepository._get_next_id] at hp ⊢
  rw [dictSet, if_neg (by simp [hno])] at hp
  rcases List.mem_append.1 hp with hl | hr
  · exact ⟨(h p hl).1, Nat.le_succ_of_le (h p hl).2⟩
  · simp only [List.mem_singleton] at hr
    subst hr
    exact ⟨rfl, Nat.le_refl _⟩

theorem redisGet_key_le {r : RedisRepository} {i : ℕ} {cur : Item}
    (h : redisInv r) (hg : dictGet r.store i = some cur) :
    cur.id = i ∧ i ≤ r.next_item_id := by
  simp only [dictGet] at hg
  rcases Option.map_eq_some'.1 hg with ⟨pr, hfind, hcur⟩
  have hmem := List.mem_of_find?_eq_some hfind
  have hkey : pr.1 = i := by simpa using List.find?_some hfind
  have hinv := h pr hmem
  exact ⟨hcur ▸ (hkey ▸ hinv.1), hkey ▸ hinv.2⟩

theorem redisInv_update {r : RedisRepository} (i : ℕ) (d : ItemCreate)
    (h : redisInv r) : redisInv (r.update_item i d).2 := by
  cases hg : dictGet r.store i with
  | none =>
    simpa [RedisRepository.update_item, RedisRepository.get_item, hg] using h
  | some cur =>
    have hhas := dictHas_of_dictGet_some hg
    rcases redisGet_key_le h hg with ⟨hid, hle⟩
    intro p hp
    simp only [RedisRepository.update_item, RedisRepository.get_item, hg] at hp ⊢
    rw [dictSet, if_pos hhas] at hp
    rcases List.mem_map.1 hp with ⟨q, hq, hpq⟩
    by_cases hqi : q.1 = i
    · rw [if_pos (by simpa using hqi)] at hpq
      subst hpq
      refine ⟨?_, hle⟩
      show (mergeDraft cur d).id = i
      rw [mergeDraft]
      exact hid
    · rw [if_neg (by simpa using hqi)] at hpq
      subst hpq
      exact h q hq

theorem redisInv_delete {r : RedisRepository} (i : ℕ) (h : redisInv r) :
    redisInv (r.delete_item i).2 := by
  intro p hp
  simp only [RedisRepository.delete_item] at hp ⊢
  exact h p (List.mem_filter.1 hp).1

theorem redisInv_applyOp {r : RedisRepository} (op : Op) (h : redisInv r) :
    redisInv (r.applyOp op) := by
  cases op with
  | create d => exact redisInv_create d h
  | update i d => exact redisInv_update i d h
  | delete i => exact redisInv_delete i h

theorem redisInv_runOps (ops : List Op) (r : RedisRepository) (h : redisInv r) :
    redisInv (r.runOps ops) := by
  induction ops generalizing r with
  | nil => exact h
  | cons op rest ih => exact ih (r.applyOp op) (redisInv_applyOp op h)

theorem counter_applyOp (r : RedisRepository) (op : Op) :
    r.next_item_id ≤ (r.applyOp op).next_item_id := by
  cases op with
  | create d =>
    simp only [RedisRepository.applyOp, RedisRepository.create_item,
      RedisRepository._get_next_id]
    exact Nat.le_succ _
  | update i d =>
    cases hg : dictGet r.store i with
    | none =>
      simp [RedisRepository.applyOp, RedisRepository.update_item,
        RedisRepository.get_item, hg]
    | some cur =>
      simp [RedisRepository.applyOp, RedisRepository.update_item,
        RedisRepository.get_item, hg]
  | delete i => simp [RedisRepository.applyOp, RedisRepository.delete_item]

theorem counter_runOps (ops : List Op) (r : RedisRepository) :
    r.next_item_id ≤ (r.runOps ops).next_item_id := by
  induction ops generalizing r with
  | nil => exact Nat.le_refl _
  | cons op rest ih =>
    calc r.next_item_id ≤ (r.applyOp op).next_item_id := counter_applyOp r op
    _ ≤ ((r.applyOp op).runOps rest).next_item_id := ih _

theorem redis_createdIds_spec (ops : List Op) (r : RedisRepository) :
    (∀ x ∈ r.createdIds ops,
        r.next_item_id + 1 ≤ x ∧ x ≤ (r.runOps ops).next_item_id) ∧
      (r.createdIds ops).Pairwise (· < ·) := by
  induction ops generalizing r with
  | nil => exact ⟨fun x hx => absurd hx (List.not_mem_nil x), List.Pairwise.nil⟩
  | cons op rest ih =>
    rcases ih (r.applyOp op) with ⟨ihb, ihp⟩
    cases op with
    | create d =>
      have hnext : (r.applyOp (Op.create d)).next_item_id = r.next_item_id + 1 := rfl
      constructor
      · intro x hx
        simp only [RedisRepository.createdIds, List.singleton_append,
          List.mem_cons] at hx
        rcases hx with hx1 | hx2
        · subst hx1
          exact ⟨Nat.le_refl _, hnext ▸ counter_runOps rest _⟩
        · rcases ihb x hx2 with ⟨hb1, hb2⟩
          rw [hnext] at hb1
          exact ⟨Nat.le_of_lt (Nat.lt_of_lt_of_le (Nat.lt_succ_self _) hb1), hb2⟩
      · simp only [RedisRepository.createdIds, List.singleton_append]
        refine List.pairwise_cons.2 ⟨?_, ihp⟩
        intro x hx
        have hb1 := (ihb x hx).1
        rw [hnext] at hb1
        exact Nat.lt_of_lt_of_le (Nat.lt_succ_self _) hb1
    | update i d =>
      refine ⟨fun x hx => ?_, ?_⟩
      · simp only [RedisRepository.createdIds, List.nil_append] at hx
        rcases ihb x hx with ⟨hb1, hb2⟩
        exact ⟨Nat.le_trans (Nat.succ_le_succ (counter_applyOp r _)) hb1, hb2⟩
      · simpa only [RedisRepository.createdIds, List.nil_append] using ihp
    | delete i =>
      refine ⟨fun x hx => ?_, ?_⟩
      · simp only [RedisRepository.createdIds, List.nil_append] at hx
        rcases ihb x hx with ⟨hb1, hb2⟩
        exact ⟨Nat.le_trans (Nat.succ_le_succ (counter_applyOp r _)) hb1, hb2⟩
      · simpa only [RedisRepository.createdIds, List.nil_append] using ihp

theorem redis_has_runOps (ops : List Op) (r : RedisRepository) (k : ℕ)
    (h : dictHas (r.runOps ops).store k = true) :
    dictHas r.store k = true ∨ k ∈ r.createdIds ops := by
  induction ops generalizing r with
  | nil => exact Or.inl h
  | cons op rest ih =>
    rcases ih (r.applyOp op) h with h2 | h2
    · cases op with
      | create d =>
        have h3 : dictHas
            (dictSet r.store (r.next_item_id + 1)
              (itemOfDraft (r.next_item_id + 1) d)) k = true := h2
        rcases dictHas_dictSet_imp h3 with h4 | h4
        · exact Or.inl h4
        · right
          simp only [RedisRepository.createdIds, List.singleton_append]
          exact h4 ▸ List.mem_cons_self _ _
      | update i d =>
        cases hg : dictGet r.store i with
        | none =>
          left
          simpa [RedisRepository.applyOp, RedisRepository.update_item,
            RedisRepository.get_item, hg] using h2
        | some cur =>
          have hhas := dictHas_of_dictGet_some hg
          left
          have h3 : dictHas (dictSet r.store i (mergeDraft cur d)) k = true := by
            simpa [RedisRepository.applyOp, RedisRepository.update_item,
              RedisRepository.get_item, hg] using h2
          rw [dictHas_dictSet_of_has hhas] at h3
          exact h3
      | delete i =>
        left
        have h3 : dictHas (dictDel r.store i) k = true := h2
        exact dictHas_of_dictHas_dictDel h3
    · right
      cases op with
      | create d =>
        simp only [RedisRepository.createdIds, List.singleton_append]
        exact List.mem_cons.2 (Or.inr h2)
      | update i d =>
        simpa only [RedisRepository.createdIds, List.nil_append] using h2
      | delete i =>
        simpa only [RedisRepository.createdIds, List.nil_append] using h2

theorem redis_absent_stays (ops : List Op) (r : RedisRepository) (k : ℕ)
    (hk : k ≤ r.next_item_id) (h : dictHas r.store k = false) :
    dictHas (r.runOps ops).store k = false := by
  induction ops generalizing r with
  | nil => exact h
  | cons op rest ih =>
    refine ih (r.applyOp op) (Nat.le_trans hk (counter_applyOp r op)) ?_
    cases op with
    | create d =>
      show dictHas
        (dictSet r.store (r.next_item_id + 1) (itemOfDraft (r.next_item_id + 1) d))
        k = false
      exact dictHas_dictSet_absent (Nat.ne_of_lt (Nat.lt_succ_of_le hk)) h
    | update i d =>
      cases hg : dictGet r.store i with
      | none =>
        simpa [RedisRepository.applyOp, RedisRepository.update_item,
          RedisRepository.get_item, hg] using h
      | some cur =>
        have hhas := dictHas_of_dictGet_some hg
        have h4 : dictHas (dictSet r.store i (mergeDraft cur d)) k = false := by
          rw [dictHas_dictSet_of_has hhas]
          exact h
        simpa [RedisRepository.applyOp, RedisRepository.update_item,
          RedisRepository.get_item, hg] using h4
    | delete i =>
      show dictHas (dictDel r.store i) k = false
      exact dictHas_dictDel_absent h

/-! ## SQLite backend: invariant and trace lemmas -/

theorem sqlHas_iff (rows : List Item) (i : ℕ) :
    sqlHas rows i = true ↔ ∃ row ∈ rows, row.id = i := by
  simp [sqlHas, List.any_eq_true]

theorem sqlGet_none_iff (db : SQLiteRepository) (i : ℕ) :
    db.get_item i = none ↔ sqlHas db.rows i = false := by
  simp [SQLiteRepository.get_item, sqlHas, List.find?_eq_none, List.any_eq_false]

theorem sqlHas_of_get_some {db : SQLiteRepository} {i : ℕ} {cur : Item}
    (h : db.get_item i = some cur) : sqlHas db.rows i = true := by
  cases hb : sqlHas db.rows i with
  | false => rw [(sqlGet_none_iff db i).2 hb] at h; cases h
  | true => rfl

theorem sqlGet_id {db : SQLiteRepository} {i : ℕ} {cur : Item}
    (h : db.get_item i = some cur) : cur.id = i ∧ cur ∈ db.rows := by
  have hmem := List.mem_of_find?_eq_some h
  have hkey : cur.id = i := by simpa using List.find?_some h
  exact ⟨hkey, hmem⟩

theorem filterCountPos (rows : List Item) (p : Item → Bool) :
    0 < (rows.filter p).length ↔ rows.any p = true := by
  rw [List.length_pos, Ne, List.filter_eq_nil_iff, List.any_eq_true]
  constructor
  · intro h
    by_contra hc
    push_neg at hc
    exact h (fun a ha hp => hc a ha hp)
  · rintro ⟨a, ha, hp⟩ h
    exact h a ha hp

theorem sql_update_seq (db : SQLiteRepository) (i : ℕ) (d : ItemCreate) :
    ((db.update_item i d).2).seq = db.seq := by
  simp only [SQLiteRepository.update_item]
  split <;> rfl

theorem sql_update_rows (db : SQLiteRepository) (i : ℕ) (d : ItemCreate) :
    ((db.update_item i d).2).rows
      = db.rows.map (fun row =>
          if row.id == i then
            { id := row.id, name := d.name,
              description := d.description, price := d.price }
          else row) := by
  simp only [SQLiteRepository.update_item]
  split <;> rfl

theorem sql_update_ids (db : SQLiteRepository) (i : ℕ) (d : ItemCreate) :
    ((db.update_item i d).2).rows.map Item.id = db.rows.map Item.id := by
  rw [sql_update_rows, List.map_map]
  refine List.map_congr_left ?_
  intro row _
  by_cases hr : row.id = i
  · simp [Function.comp, hr]
  · simp [Function.comp, hr]

theorem sqlHas_map_overwrite (rows : List Item) (i k : ℕ) (d : ItemCreate) :
    sqlHas (rows.map (fun row =>
        if row.id == i then
          { id := row.id, name := d.name,
            description := d.description, price := d.price }
        else row)) k = sqlHas rows k := by
  induction rows with
  | nil => rfl
  | cons row t ih =>
    simp only [List.map_cons, sqlHas, List.any_cons] at ih ⊢
    rw [ih]
    by_cases hr : row.id = i
    · simp [hr]
    · simp [hr]

theorem sqlHas_filter_absent {rows : List Item} {i k : ℕ}
    (h : sqlHas rows k = false) :
    sqlHas (rows.filter (fun row => !(row.id == i))) k = false := by
  cases hb : sqlHas (rows.filter (fun row => !(row.id == i))) k with
  | false => rfl
  | true =>
    rcases (sqlHas_iff _ _).1 hb with ⟨row, hrow, hk⟩
    have : sqlHas rows k = true :=
      (sqlHas_iff _ _).2 ⟨row, (List.mem_filter.1 hrow).1, hk⟩
    rw [this] at h
    cases h

theorem sqlHas_filter_imp {rows : List Item} {i k : ℕ}
    (h : sqlHas (rows.filter (fun row => !(row.id == i))) k = true) :
    sqlHas rows k = true := by
  rcases (sqlHas_iff _ _).1 h with ⟨row, hrow, hk⟩
  exact (sqlHas_iff _ _).2 ⟨row, (List.mem_filter.1 hrow).1, hk⟩

theorem sqlHas_append_imp {rows : List Item} {row : Item} {k : ℕ}
    (h : sqlHas (rows ++ [row]) k = true) :
    sqlHas rows k = true ∨ k = row.id := by
  rcases (sqlHas_iff _ _).1 h with ⟨q, hq, hk⟩
  rcases List.mem_append.1 hq with hl | hr
  · exact Or.inl ((sqlHas_iff _ _).2 ⟨q, hl, hk⟩)
  · simp only [List.mem_singleton] at hr
    subst hr
    exact Or.inr hk.symm

theorem sqlHas_append_absent {rows : List Item} {row : Item} {k : ℕ}
    (hne : k ≠ row.id) (h : sqlHas rows k = false) :
    sqlHas (rows ++ [row]) k = false := by
  cases hb : sqlHas (rows ++ [row]) k with
  | false => rfl
  | true =>
    rcases sqlHas_append_imp hb with h1 | h2
    · rw [h1] at h; cases h
    · exact absurd h2 hne

theorem sqlInv_init : sqlInv SQLiteRepository.init := by
  intro row hrow
  simp [SQLiteRepository.init] at hrow

theorem sqlInv_create {db : SQLiteRepository} (d : ItemCreate) (h : sqlInv db) :
    sqlInv (db.create_item d).2 := by
  intro row hrow
  simp only [SQLiteRepository.create_item] at hrow ⊢
  rcases List.mem_append.1 hrow with hl | hr
  · exact Nat.le_succ_of_le (h row hl)
  · simp only [List.mem_singleton] at hr
    subst hr
    exact Nat.le_refl _

theorem sqlInv_update {db : SQLiteRepository} (i : ℕ) (d : ItemCreate)
    (h : sqlInv db) : sqlInv (db.update_item i d).2 := by
  intro row hrow
  rw [sql_update_rows] at hrow
  have hseq := sql_update_seq db i d
  rcases List.mem_map.1 hrow with ⟨q, hq, hpq⟩
  rw [hseq]
  by_cases hr : q.id = i
  · rw [if_pos (by simpa using hr)] at hpq
    subst hpq
    exact h q hq
  · rw [if_neg (by simpa using hr)] at hpq
    subst hpq
    exact h q hq

theorem sqlInv_delete {db : SQLiteRepository} (i : ℕ) (h : sqlInv db) :
    sqlInv (db.delete_item i).2 := by
  intro row hrow
  simp only [SQLiteRepository.delete_item] at hrow ⊢
  exact h row (List.mem_filter.1 hrow).1

theorem sqlInv_applyOp {db : SQLiteRepository} (op : Op) (h : sqlInv db) :
    sqlInv (db.applyOp op) := by
  cases op with
  | create d => exact sqlInv_create d h
  | update i d => exact sqlInv_update i d h
  | delete i => exact sqlInv_delete i h

theorem sqlInv_runOps (ops : List Op) (db : SQLiteRepository) (h : sqlInv db) :
    sqlInv (db.runOps ops) := by
  induction ops generalizing db with
  | nil => exact h
  | cons op rest ih => exact ih (db.applyOp op) (sqlInv_applyOp op h)

theorem seq_applyOp (db : SQLiteRepository) (op : Op) :
    db.seq ≤ (db.applyOp op).seq := by
  cases op with
  | create d =>
    simp only [SQLiteRepository.applyOp, SQLiteRepository.create_item]
    exact Nat.le_succ _
  | update i d =>
    show db.seq ≤ ((db.update_item i d).2).seq
    rw [sql_update_seq]
  | delete i => exact Nat.le_refl _

theorem seq_runOps (ops : List Op) (db : SQLiteRepository) :
    db.seq ≤ (db.runOps ops).seq := by
  induction ops generalizing db with
  | nil => exact Nat.le_refl _
  | cons op rest ih =>
    calc db.seq ≤ (db.applyOp op).seq := seq_applyOp db op
    _ ≤ ((db.applyOp op).runOps rest).seq := ih _

theorem sql_createdIds_spec (ops : List Op) (db : SQLiteRepository) :
    (∀ x ∈ db.createdIds ops, db.seq + 1 ≤ x ∧ x ≤ (db.runOps ops).seq) ∧
      (db.createdIds ops).Pairwise (· < ·) := by
  induction ops generalizing db with
  | nil => exact ⟨fun x hx => absurd hx (List.not_mem_nil x), List.Pairwise.nil⟩
  | cons op rest ih =>
    rcases ih (db.applyOp op) with ⟨ihb, ihp⟩
    cases op with
    | create d =>
      have hnext : (db.applyOp (Op.create d)).seq = db.seq + 1 := rfl
      constructor
      · intro x hx
        simp only [SQLiteRepository.createdIds, List.singleton_append,
          List.mem_cons] at hx
        rcases hx with hx1 | hx2
        · subst hx1
          exact ⟨Nat.le_refl _, hnext ▸ seq_runOps rest _⟩
        · rcases ihb x hx2 with ⟨hb1, hb2⟩
          rw [hnext] at hb1
          exact ⟨Nat.le_of_lt (Nat.lt_of_lt_of_le (Nat.lt_succ_self _) hb1), hb2⟩
      · simp only [SQLiteRepository.createdIds, List.singleton_append]
        refine List.pairwise_cons.2 ⟨?_, ihp⟩
        intro x hx
        have hb1 := (ihb x hx).1
        rw [hnext] at hb1
        exact Nat.lt_of_lt_of_le (Nat.lt_succ_self _) hb1
    | update i d =>
      refine ⟨fun x hx => ?_, ?_⟩
      · simp only [SQLiteRepository.createdIds, List.nil_append] at hx
        rcases ihb x hx with ⟨hb1, hb2⟩
        exact ⟨Nat.le_trans (Nat.succ_le_succ (seq_applyOp db _)) hb1, hb2⟩
      · simpa only [SQLiteRepository.createdIds, List.nil_append] using ihp
    | delete i =>
      refine ⟨fun x hx => ?_, ?_⟩
      · simp only [SQLiteRepository.createdIds, List.nil_append] at hx
        rcases ihb x hx with ⟨hb1, hb2⟩
        exact ⟨Nat.le_trans (Nat.succ_le_succ (seq_applyOp db _)) hb1, hb2⟩
      · simpa only [SQLiteRepository.createdIds, List.nil_append] using ihp

theorem sql_has_runOps (ops : List Op) (db : SQLiteRepository) (k : ℕ)
    (h : sqlHas (db.runOps ops).rows k = true) :
    sqlHas db.rows k = true ∨ k ∈ db.createdIds ops := by
  induction ops generalizing db with
  | nil => exact Or.inl h
  | cons op rest ih =>
    rcases ih (db.applyOp op) h with h2 | h2
    · cases op with
      | create d =>
        have h3 : sqlHas (db.rows ++ [itemOfDraft (db.seq + 1) d]) k = true := h2
        rcases sqlHas_append_imp h3 with h4 | h4
        · exact Or.inl h4
        · right
          simp only [SQLiteRepository.createdIds, List.singleton_append]
          exact h4 ▸ List.mem_cons_self _ _
      | update i d =>
        left
        have h3 := h2
        rw [show (db.applyOp (Op.update i d)) = (db.update_item i d).2 from rfl,
          sql_update_rows, sqlHas_map_overwrite] at h3
        exact h3
      | delete i =>
        left
        have h3 : sqlHas (db.rows.filter (fun row => !(row.id == i))) k = true := h2
        exact sqlHas_filter_imp h3
    · right
      cases op with
      | create d =>
        simp only [SQLiteRepository.createdIds, List.singleton_append]
        exact List.mem_cons.2 (Or.inr h2)
      | update i d =>
        simpa only [SQLiteRepository.createdIds, List.nil_append] using h2
      | delete i =>
        simpa only [SQLiteRepository.createdIds, List.nil_append] using h2

theorem sql_absent_stays (ops : List Op) (db : SQLiteRepository) (k : ℕ)
    (hk : k ≤ db.seq) (h : sqlHas db.rows k = false) :
    sqlHas (db.runOps ops).rows k = false := by
  induction ops generalizing db with
  | nil => exact h
  | cons op rest ih =>
    refine ih (db.applyOp op) (Nat.le_trans hk (seq_applyOp db op)) ?_
    cases op with
    | create d =>
      show sqlHas (db.rows ++ [itemOfDraft (db.seq + 1) d]) k = false
      refine sqlHas_append_absent ?_ h
      show k ≠ (itemOfDraft (db.seq + 1) d).id
      exact Nat.ne_of_lt (Nat.lt_succ_of_le hk)
    | update i d =>
      show sqlHas ((db.update_item i d).2).rows k = false
      rw [sql_update_rows, sqlHas_map_overwrite]
      exact h
    | delete i =>
      show sqlHas (db.rows.filter (fun row => !(row.id == i))) k = false
      exact sqlHas_filter_absent h

/-! ## Filter lemmas: substring, LIKE, and the spec-side predicates -/

theorem containsSub_nil (hay : List Char) : containsSub [] hay = true := by
  cases hay with
  | nil => rfl
  | cons c t => simp [containsSub, List.tails_cons, List.any_cons, List.isPrefixOf]

theorem anyTail_eq (f : List Char → Bool) (cs : List Char) :
    anyTail f cs = cs.tails.any f := by
  induction cs with
  | nil => simp [anyTail, List.tails]
  | cons c t ih => simp [anyTail, List.tails_cons, List.any_cons, ih]

theorem anyTail_of_nil {f : List Char → Bool} (hf : f [] = true) (cs : List Char) :
    anyTail f cs = true := by
  induction cs with
  | nil => exact hf
  | cons c t ih => simp [anyTail, ih]

theorem likeMatch_percent (t : List Char) : likeMatch ['%'] t = true := by
  have h : likeMatch ('%' :: ([] : List Char)) t
      = anyTail (fun s => likeMatch [] s) t := by
    simp [likeMatch]
  rw [h]
  exact anyTail_of_nil (by simp [likeMatch]) t

theorem likeMatch_noWild {p : List Char}
    (hp : ∀ c ∈ p, ¬(c = '%' ∨ c = '_')) (t : List Char) :
    likeMatch (p ++ ['%']) t = p.isPrefixOf t := by
  induction p generalizing t with
  | nil =>
    simp only [List.nil_append]
    rw [likeMatch_percent]
    symm
    simp [List.isPrefixOf]
  | cons a p2 ih =>
    have ha := hp a (List.mem_cons_self a p2)
    have ha1 : ¬ a = '%' := fun h => ha (Or.inl h)
    have ha2 : ¬ a = '_' := fun h => ha (Or.inr h)
    have hp2 : ∀ c ∈ p2, ¬(c = '%' ∨ c = '_') :=
      fun c hc => hp c (List.mem_cons.2 (Or.inr hc))
    cases t with
    | nil => simp [likeMatch, ha1, List.isPrefixOf]
    | cons c cs =>
      simp only [List.cons_append, likeMatch, ha1, if_false, ite_false,
        List.isPrefixOf, ha2, decide_False, Bool.false_or, if_neg]
      have hi : likeMatch (p2.append ['%']) cs = p2.isPrefixOf cs := ih hp2 cs
      rw [hi]
      by_cases hac : a = c
      · simp [hac]
      · simp [hac]

theorem likeMatch_wrap {p : List Char}
    (hp : ∀ c ∈ p, ¬(c = '%' ∨ c = '_')) (t : List Char) :
    likeMatch ('%' :: (p ++ ['%'])) t = containsSub p t := by
  have h1 : likeMatch ('%' :: (p ++ ['%'])) t
      = anyTail (fun s => likeMatch (p ++ ['%']) s) t := rfl
  rw [h1, anyTail_eq, containsSub]
  exact anyCongr _ (fun s _ => likeMatch_noWild hp s)

theorem likePattern_eq (f : String) :
    likePattern f = '%' :: ((strLower f).data ++ ['%']) := by
  simp [likePattern, strLower, String.data_append]

theorem matchName_iff (nf : Option String) (x : Item) :
    matchName nf x.name = true ↔ NameFilterOk nf x := by
  cases nf with
  | none => simp [matchName, NameFilterOk]
  | some f =>
    by_cases hf : f = ""
    · subst hf
      have he : (strLower "").data = ([] : List Char) := rfl
      simp [matchName, NameFilterOk, he, containsSub_nil]
    · simp only [matchName, if_neg hf, NameFilterOk]
      constructor
      · intro h g hg
        cases hg
        exact h
      · intro h
        exact h f rfl

theorem matchPrice_zero (price : ℚ) : matchPrice (some 0) price = true := by
  simp [matchPrice]

theorem matchPrice_pos {m : ℚ} (hm : 0 < m) (price : ℚ) :
    (matchPrice (some m) price = true) ↔ m ≤ price := by
  rw [matchPrice, if_neg (Ne.symm (ne_of_lt hm))]
  simp [not_lt]

theorem sqliteName_iff {f : String} (hw : NoLikeWildcards f) (row : Item) :
    ((if f = "" then true
      else likeMatch (likePattern f) (strLower row.name).data) = true)
      ↔ containsSub (strLower f).data (strLower row.name).data = true := by
  by_cases hf : f = ""
  · subst hf
    have he : (strLower "").data = [] := rfl
    simp [he, containsSub_nil]
  · rw [if_neg hf, likePattern_eq, likeMatch_wrap hw]

theorem mem_list_iff (r : InMemoryRepository) (nf : Option String)
    (mp : Option ℚ) (x : Item) :
    x ∈ r.list_items nf mp ↔
      (∃ p ∈ r.items, p.2 = x) ∧ matchName nf x.name = true ∧
        matchPrice mp x.price = true := by
  simp only [InMemoryRepository.list_items, List.mem_filter, List.mem_map,
    Bool.and_eq_true]

theorem redis_mem_list_iff (r : RedisRepository) (nf : Option String)
    (mp : Option ℚ) (x : Item) :
    x ∈ r.list_items nf mp ↔
      (∃ p ∈ r.store, p.2 = x) ∧ matchName nf x.name = true ∧
        matchPrice mp x.price = true := by
  simp only [RedisRepository.list_items, List.mem_filter, List.mem_map,
    Bool.and_eq_true]

theorem sql_mem_list_iff (db : SQLiteRepository) (nf : Option String)
    (mp : Option ℚ) (x : Item) :
    x ∈ db.list_items nf mp ↔ x ∈ db.rows ∧ sqliteRowOk nf mp x = true := by
  rw [SQLiteRepository.list_items]
  rw [(List.perm_insertionSort rowLe _).mem_iff, List.mem_filter]

/-! ## Remaining helper lemmas -/

theorem dictGet_isSome (l : List (ℕ × Item)) (k : ℕ) :
    (dictGet l k).isSome = dictHas l k := by
  cases hb : dictHas l k with
  | false => rw [(dictGet_none_iff l k).2 hb]; rfl
  | true =>
    cases hg : dictGet l k with
    | none =>
      have hf := (dictGet_none_iff l k).1 hg
      rw [hf] at hb
      cases hb
    | some v => rfl

theorem sqlGet_isSome (db : SQLiteRepository) (i : ℕ) :
    (db.get_item i).isSome = sqlHas db.rows i := by
  cases hb : sqlHas db.rows i with
  | false => rw [(sqlGet_none_iff db i).2 hb]; rfl
  | true =>
    cases hg : db.get_item i with
    | none =>
      have hf := (sqlGet_none_iff db i).1 hg
      rw [hf] at hb
      cases hb
    | some v => rfl

theorem not_sqlHas_succ {rows : List Item} {n : ℕ}
    (h : ∀ row ∈ rows, row.id ≤ n) : sqlHas rows (n + 1) = false := by
  cases hb : sqlHas rows (n + 1) with
  | false => rfl
  | true =>
    rcases (sqlHas_iff _ _).1 hb with ⟨row, hrow, hk⟩
    exact absurd hk (Nat.ne_of_lt (Nat.lt_succ_of_le (h row hrow)))

theorem sqlHas_del_self (rows : List Item) (i : ℕ) :
    sqlHas (rows.filter (fun row => !(row.id == i))) i = false := by
  simp [sqlHas, List.any_eq_false, List.mem_filter]

theorem find_overwrite (rows : List Item) (i : ℕ) (d : ItemCreate)
    (h : sqlHas rows i = true) :
    (rows.map (fun row => if row.id == i then
        { id := row.id, name := d.name, description := d.description,
          price := d.price } else row)).find? (fun row => row.id == i)
      = some { id := i, name := d.name, description := d.description, price := d.price } := by
  induction rows with
  | nil => simp [sqlHas] at h
  | cons row t ih =>
    by_cases hr : row.id = i
    · simp [List.find?_cons, hr]
    · have ht : sqlHas t i = true := by
        simp only [sqlHas, List.any_cons] at h
        simpa [sqlHas, hr] using h
      simpa [List.find?_cons, hr] using ih ht

theorem sql_map_noop {rows : List Item} {i : ℕ} (d : ItemCreate)
    (h : sqlHas rows i = false) :
    rows.map (fun row => if row.id == i then
        { id := row.id, name := d.name, description := d.description,
          price := d.price } else row) = rows := by
  have hall : ∀ row ∈ rows, ¬(row.id == i) = true := by
    simpa [sqlHas, List.any_eq_false] using h
  have hpt : ∀ row ∈ rows, (if row.id == i then
      ({ id := row.id, name := d.name, description := d.description, price := d.price } : Item)
      else row) = row := by
    intro row hrow
    rw [if_neg (hall row hrow)]
  rw [List.map_congr_left hpt]
  exact List.map_id rows

theorem dictSet_pairs {l : List (ℕ × Item)} {i : ℕ} {v : Item}
    (hhas : dictHas l i = true) (hv : v.id = i)
    (hinv : ∀ p ∈ l, p.2.id = p.1) :
    (dictSet l i v).map (fun p => (p.1, p.2.id))
      = l.map (fun p => (p.1, p.2.id)) := by
  rw [dictSet, if_pos hhas, List.map_map]
  refine List.map_congr_left ?_
  intro q hq
  by_cases hqi : q.1 = i
  · simp [Function.comp, hqi, hv, hinv q hq]
  · simp [Function.comp, hqi]

theorem matchPrice_iff_ok {mp : Option ℚ}
    (hmp : mp = none ∨ ∃ m, mp = some m ∧ 0 < m) (x : Item) :
    (matchPrice mp x.price = true) ↔ MinPriceOk mp x := by
  rcases hmp with h | ⟨m, hm, hpos⟩
  · subst h
    simp [matchPrice, MinPriceOk]
  · subst hm
    rw [matchPrice_pos hpos]
    constructor
    · intro h g hg
      cases hg
      exact h
    · intro h
      exact h m rfl

theorem sqliteRowOk_split (nf : Option String) (mp : Option ℚ) (x : Item) :
    sqliteRowOk nf mp x = (sqliteRowOk nf none x && sqliteRowOk none mp x) := by
  cases nf <;> cases mp <;> simp [sqliteRowOk]

theorem sqliteRowOk_name_iff {nf : Option String}
    (hw : ∀ f, nf = some f → NoLikeWildcards f) (x : Item) :
    sqliteRowOk nf none x = true ↔ NameFilterOk nf x := by
  cases nf with
  | none => simp [sqliteRowOk, NameFilterOk]
  | some f =>
    have h1 : sqliteRowOk (some f) none x
        = (if f = "" then true
           else likeMatch (likePattern f) (strLower x.name).data) := by
      simp [sqliteRowOk]
    rw [h1, sqliteName_iff (hw f rfl)]
    constructor
    · intro h g hg
      cases hg
      exact h
    · intro h
      exact h f rfl

theorem sqliteRowOk_price_iff {mp : Option ℚ}
    (hmp : mp = none ∨ ∃ m, mp = some m ∧ 0 < m) (x : Item) :
    sqliteRowOk none mp x = true ↔ MinPriceOk mp x := by
  rcases hmp with h | ⟨m, hm, hpos⟩
  · subst h
    simp [sqliteRowOk, MinPriceOk]
  · subst hm
    have h1 : sqliteRowOk none (some m) x
        = (if m = 0 then true else decide (m ≤ x.price)) := by
      simp [sqliteRowOk]
    rw [h1, if_neg (Ne.symm (ne_of_lt hpos))]
    simp only [decide_eq_true_eq]
    constructor
    · intro h g hg
      cases hg
      exact h
    · intro h
      exact h m rfl

theorem sql_get_after_create {db : SQLiteRepository} (h : sqlInv db)
    (d : ItemCreate) :
    ((db.create_item d).2).get_item ((db.create_item d).1).id
      = some (db.create_item d).1 := by
  have hno : sqlHas db.rows (db.seq + 1) = false := not_sqlHas_succ h
  have hnone : db.rows.find? (fun row => row.id == db.seq + 1) = none := by
    have := (sqlGet_none_iff db (db.seq + 1)).2 hno
    simpa [SQLiteRepository.get_item] using this
  show (db.rows ++ [itemOfDraft (db.seq + 1) d]).find?
      (fun row => row.id == db.seq + 1) = some (itemOfDraft (db.seq + 1) d)
  rw [List.find?_append, hnone]
  simp [itemOfDraft, List.find?_cons]

theorem sql_rowcount_decide (rows : List Item) (i : ℕ) :
    decide (0 < (rows.filter (fun row => row.id == i)).length) = sqlHas rows i := by
  cases hb : sqlHas rows i with
  | true => simpa using (filterCountPos rows _).2 hb
  | false =>
    have hnil : rows.filter (fun row => row.id == i) = [] :=
      List.filter_eq_nil_iff.2 (by simpa [sqlHas, List.any_eq_false] using hb)
    simp [hnil]

/-! ## Claim theorems -/

/-- C5: in every backend, `update` on an absent id returns the NotFound
signal (`None`) and leaves the stored state completely unchanged. -/
theorem claim_C5_update_absent_notfound :
    (∀ (r : InMemoryRepository) (i : ℕ) (d : ItemCreate),
       r.get_item i = none → r.update_item i d = (none, r)) ∧
    (∀ (r : RedisRepository) (i : ℕ) (d : ItemCreate),
       r.get_item i = none → r.update_item i d = (none, r)) ∧
    (∀ (db : SQLiteRepository) (i : ℕ) (d : ItemCreate),
       db.get_item i = none → db.update_item i d = (none, db)) := by
  refine ⟨?_, ?_, ?_⟩
  · intro r i d hg
    have hg2 : dictGet r.items i = none := hg
    simp [InMemoryRepository.update_item, hg2]
  · intro r i d hg
    have hg2 : dictGet r.store i = none := hg
    simp [RedisRepository.update_item, RedisRepository.get_item, hg2]
  · intro db i d hg
    have hno : sqlHas db.rows i = false := (sqlGet_none_iff db i).1 hg
    have hnil : db.rows.filter (fun row => row.id == i) = [] :=
      List.filter_eq_nil_iff.2 (by simpa [sqlHas, List.any_eq_false] using hno)
    have hmap := sql_map_noop d hno
    simp only [SQLiteRepository.update_item, hnil]
    rw [if_neg (by simp)]
    rw [hmap]

/-- C5 witness: updating id 1 in each fresh (empty) backend returns
NotFound and leaves the state untouched. -/
theorem claim_C5_witness :
    InMemoryRepository.update_item InMemoryRepository.init 1
        ⟨"Updated", none, 150, true⟩ = (none, InMemoryRepository.init) ∧
    RedisRepository.update_item RedisRepository.init 1
        ⟨"Updated", none, 150, true⟩ = (none, RedisRepository.init) ∧
    SQLiteRepository.update_item SQLiteRepository.init 1
        ⟨"Updated", none, 150, true⟩ = (none, SQLiteRepository.init) :=
  ⟨claim_C5_update_absent_notfound.1 InMemoryRepository.init 1 _ (by decide),
   claim_C5_update_absent_notfound.2.1 RedisRepository.init 1 _ (by decide),
   claim_C5_update_absent_notfound.2.2 SQLiteRepository.init 1 _ (by decide)⟩

/-- C6: in every backend, `delete` returns true iff a record with that id
was present (the boolean equals `(get id).isSome` taken just before), a
subsequent `get` on the deleted id yields NotFound, and a second `delete`
with no intervening create returns false. -/
theorem claim_C6_delete_semantics :
    (∀ (r : InMemoryRepository) (i : ℕ),
       (r.delete_item i).1 = (r.get_item i).isSome ∧
       ((r.delete_item i).2).get_item i = none ∧
       (((r.delete_item i).2).delete_item i).1 = false) ∧
    (∀ (r : RedisRepository) (i : ℕ),
       (r.delete_item i).1 = (r.get_item i).isSome ∧
       ((r.delete_item i).2).get_item i = none ∧
       (((r.delete_item i).2).delete_item i).1 = false) ∧
    (∀ (db : SQLiteRepository) (i : ℕ),
       (db.delete_item i).1 = (db.get_item i).isSome ∧
       ((db.delete_item i).2).get_item i = none ∧
       (((db.delete_item i).2).delete_item i).1 = false) := by
  refine ⟨?_, ?_, ?_⟩
  · intro r i
    refine ⟨?_, ?_, ?_⟩
    · show (r.delete_item i).1 = (dictGet r.items i).isSome
      rw [dictGet_isSome]
      cases hb : dictHas r.items i with
      | true => simp [InMemoryRepository.delete_item, hb]
      | false => simp [InMemoryRepository.delete_item, hb]
    · cases hb : dictHas r.items i with
      | true =>
        simp [InMemoryRepository.delete_item, hb, InMemoryRepository.get_item,
          dictGet_dictDel_self]
      | false =>
        simp [InMemoryRepository.delete_item, hb, InMemoryRepository.get_item,
          (dictGet_none_iff r.items i).2 hb]
    · cases hb : dictHas r.items i with
      | true =>
        simp [InMemoryRepository.delete_item, hb, dictHas_dictDel_self]
      | false => simp [InMemoryRepository.delete_item, hb]
  · intro r i
    refine ⟨?_, ?_, ?_⟩
    · show dictHas r.store i = (dictGet r.store i).isSome
      rw [dictGet_isSome]
    · exact dictGet_dictDel_self r.store i
    · show dictHas (dictDel r.store i) i = false
      exact dictHas_dictDel_self r.store i
  · intro db i
    refine ⟨?_, ?_, ?_⟩
    · show decide (0 < (db.rows.filter (fun row => row.id == i)).length)
          = (db.get_item i).isSome
      rw [sqlGet_isSome, sql_rowcount_decide]
    · show ((db.delete_item i).2).rows.find? (fun row => row.id == i) = none
      have h2 : sqlHas ((db.delete_item i).2).rows i = false :=
        sqlHas_del_self db.rows i
      simpa [SQLiteRepository.get_item, sqlHas, List.find?_eq_none,
        List.any_eq_false] using h2
    · show decide (0 < (((db.delete_item i).2).rows.filter
          (fun row => row.id == i)).length) = false
      rw [sql_rowcount_decide]
      exact sqlHas_del_self db.rows i

/-- C8: the relational backend's `list` always returns its rows sorted by
id in ascending order, for every table contents and filter combination. -/
theorem claim_C8_relational_order (db : SQLiteRepository)
    (nf : Option String) (mp : Option ℚ) :
    (db.list_items nf mp).Pairwise (fun a b => a.id ≤ b.id) :=
  List.sorted_insertionSort rowLe (db.rows.filter (sqliteRowOk nf mp))

/-- C9: the backend selector yields the matching implementation for each
of the three recognized storage-type values and raises an error (never a
silent fallback) on any other value. -/
theorem claim_C9_selector_rejects_unknown :
    get_repository "in_memory" = Except.ok RepoKind.in_memory ∧
    get_repository "sqlite" = Except.ok RepoKind.sqlite ∧
    get_repository "redis" = Except.ok RepoKind.redis ∧
    ∀ s : String, s ≠ "in_memory" → s ≠ "sqlite" → s ≠ "redis" →
      get_repository s = Except.error ("Unknown storage type: " ++ s) := by
  refine ⟨rfl, rfl, rfl, ?_⟩
  intro s h1 h2 h3
  simp [get_repository, h1, h2, h3]

/-- C9 witness: an unrecognized storage-type value is rejected with an
error. -/
theorem claim_C9_witness :
    get_repository "postgres" = Except.error "Unknown storage type: postgres" :=
  claim_C9_selector_rejects_unknown.2.2.2 "postgres" (by decide) (by decide)
    (by decide)

/-- C10: in every backend, a `nameFilter` equal to the empty string is
treated as unset — the listing equals the unfiltered one, and the name
check passes for every name. -/
theorem claim_C10_empty_name_filter :
    (∀ (r : InMemoryRepository) (mp : Option ℚ),
       r.list_items (some "") mp = r.list_items none mp) ∧
    (∀ (db : SQLiteRepository) (mp : Option ℚ),
       db.list_items (some "") mp = db.list_items none mp) ∧
    (∀ (r : RedisRepository) (mp : Option ℚ),
       r.list_items (some "") mp = r.list_items none mp) ∧
    (∀ name : String, matchName (some "") name = true) := by
  refine ⟨?_, ?_, ?_, ?_⟩
  · intro r mp
    unfold InMemoryRepository.list_items
    refine List.filter_congr ?_
    intro x _
    simp [matchName]
  · intro db mp
    unfold SQLiteRepository.list_items
    refine congrArg (List.insertionSort rowLe) (List.filter_congr ?_)
    intro x _
    simp [sqliteRowOk]
  · intro r mp
    unfold RedisRepository.list_items
    refine List.filter_congr ?_
    intro x _
    simp [matchName]
  · intro name
    simp [matchName]

/-- C2: in every backend, a minPrice of exactly 0 imposes no price
constraint at all (the listing equals the unfiltered one and every price
passes the check), while a minPrice strictly greater than 0 selects
exactly the stored items with price ≥ minPrice. -/
theorem claim_C2_minPrice_falsy_zero :
    (∀ (r : InMemoryRepository) (nf : Option String),
       r.list_items nf (some 0) = r.list_items nf none) ∧
    (∀ (r : RedisRepository) (nf : Option String),
       r.list_items nf (some 0) = r.list_items nf none) ∧
    (∀ (db : SQLiteRepository) (nf : Option String),
       db.list_items nf (some 0) = db.list_items nf none) ∧
    (∀ price : ℚ, matchPrice (some 0) price = true) ∧
    (∀ (r : InMemoryRepository) (m : ℚ), 0 < m → ∀ x : Item,
       (x ∈ r.list_items none (some m) ↔
         (∃ p ∈ r.items, p.2 = x) ∧ m ≤ x.price)) ∧
    (∀ (r : RedisRepository) (m : ℚ), 0 < m → ∀ x : Item,
       (x ∈ r.list_items none (some m) ↔
         (∃ p ∈ r.store, p.2 = x) ∧ m ≤ x.price)) ∧
    (∀ (db : SQLiteRepository) (m : ℚ), 0 < m → ∀ x : Item,
       (x ∈ db.list_items none (some m) ↔ x ∈ db.rows ∧ m ≤ x.price)) := by
  refine ⟨?_, ?_, ?_, ?_, ?_, ?_, ?_⟩
  · intro r nf
    unfold InMemoryRepository.list_items
    refine List.filter_congr ?_
    intro x _
    simp [matchPrice]
  · intro r nf
    unfold RedisRepository.list_items
    refine List.filter_congr ?_
    intro x _
    simp [matchPrice]
  · intro db nf
    unfold SQLiteRepository.list_items
    refine congrArg (List.insertionSort rowLe) (List.filter_congr ?_)
    intro x _
    simp [sqliteRowOk]
  · intro price
    exact matchPrice_zero price
  · intro r m hm x
    rw [mem_list_iff]
    have h1 : matchName none x.name = true := rfl
    simp [h1, matchPrice_pos hm]
  · intro r m hm x
    rw [redis_mem_list_iff]
    have h1 : matchName none x.name = true := rfl
    simp [h1, matchPrice_pos hm]
  · intro db m hm x
    rw [sql_mem_list_iff]
    have h2 : sqliteRowOk none (some m) x = true ↔ m ≤ x.price := by
      rw [sqliteRowOk_price_iff (Or.inr ⟨m, rfl, hm⟩)]
      constructor
      · intro h
        exact h m rfl
      · intro h g hg
        cases hg
        exact h
    rw [h2]

/-- C2 witness: over prices 10 and 30, minPrice 25 keeps exactly the item
priced 30, and minPrice 0 filters nothing. -/
theorem claim_C2_witness :
    ((⟨2, "B", none, 30⟩ : Item) ∈ InMemoryRepository.list_items
        ⟨[(1, ⟨1, "A", none, 10⟩), (2, ⟨2, "B", none, 30⟩)], 3⟩ none (some 25)) ∧
    ¬ ((⟨1, "A", none, 10⟩ : Item) ∈ InMemoryRepository.list_items
        ⟨[(1, ⟨1, "A", none, 10⟩), (2, ⟨2, "B", none, 30⟩)], 3⟩ none (some 25)) ∧
    InMemoryRepository.list_items
        ⟨[(1, ⟨1, "A", none, 10⟩), (2, ⟨2, "B", none, 30⟩)], 3⟩ none (some 0)
      = InMemoryRepository.list_items
        ⟨[(1, ⟨1, "A", none, 10⟩), (2, ⟨2, "B", none, 30⟩)], 3⟩ none none := by
  refine ⟨?_, ?_, ?_⟩
  · exact (claim_C2_minPrice_falsy_zero.2.2.2.2.1 _ 25 (by decide)
      (⟨2, "B", none, 30⟩ : Item)).2 ⟨⟨(2, ⟨2, "B", none, 30⟩), by decide, rfl⟩, by decide⟩
  · intro h
    have h2 := (claim_C2_minPrice_falsy_zero.2.2.2.2.1 _ 25 (by decide)
      (⟨1, "A", none, 10⟩ : Item)).1 h
    exact absurd h2.2 (by decide)
  · exact claim_C2_minPrice_falsy_zero.1 _ none

/-- C1 counterexample: the SQLite backend does not implement partial
update.  With a stored item whose description is "Old desc" and an update
draft that leaves `description` unset, the claim says the merged record
keeps "Old desc"; the code's full-column UPDATE resets it to None, both
in the value returned by update and in a subsequent get. -/
theorem claim_C1_counterexample :
    (ItemCreate.mk "Updated" none 150 false).descriptionSet = false ∧
    (SQLiteRepository.get_item ⟨[⟨1, "Original", some "Old desc", 50⟩], 1⟩ 1)
      = some ⟨1, "Original", some "Old desc", 50⟩ ∧
    ((SQLiteRepository.update_item ⟨[⟨1, "Original", some "Old desc", 50⟩], 1⟩ 1
        ⟨"Updated", none, 150, false⟩).1).map Item.description = some none ∧
    (((SQLiteRepository.update_item ⟨[⟨1, "Original", some "Old desc", 50⟩], 1⟩ 1
        ⟨"Updated", none, 150, false⟩).2).get_item 1).map Item.description
      = some none :=
  ⟨rfl, by decide, by decide, by decide⟩

/-- C1 (amended): the in-memory and Redis backends merge only the
explicitly-set draft fields onto the stored record — an unset description
keeps its prior value, set fields overwrite, the id is unchanged, and the
merged record is both returned and readable via a subsequent get.  The
SQLite backend instead overwrites all three columns with the draft's
values (so an unset description is reset to None); the row it returns is
likewise what a subsequent get returns. -/
theorem claim_C1_partial_update_amended :
    (∀ (r : InMemoryRepository) (i : ℕ) (d : ItemCreate) (cur : Item),
      r.get_item i = some cur →
        (r.update_item i d).1 = some (mergeDraft cur d) ∧
        (mergeDraft cur d).id = cur.id ∧
        (mergeDraft cur d).name = d.name ∧
        (mergeDraft cur d).price = d.price ∧
        (d.descriptionSet = false →
          (mergeDraft cur d).description = cur.description) ∧
        (d.descriptionSet = true →
          (mergeDraft cur d).description = d.description) ∧
        ((r.update_item i d).2).get_item i = some (mergeDraft cur d)) ∧
    (∀ (r : RedisRepository) (i : ℕ) (d : ItemCreate) (cur : Item),
      r.get_item i = some cur →
        (r.update_item i d).1 = some (mergeDraft cur d) ∧
        (mergeDraft cur d).id = cur.id ∧
        (mergeDraft cur d).name = d.name ∧
        (mergeDraft cur d).price = d.price ∧
        (d.descriptionSet = false →
          (mergeDraft cur d).description = cur.description) ∧
        (d.descriptionSet = true →
          (mergeDraft cur d).description = d.description) ∧
        ((r.update_item i d).2).get_item i = some (mergeDraft cur d)) ∧
    (∀ (db : SQLiteRepository) (i : ℕ) (d : ItemCreate) (cur : Item),
      db.get_item i = some cur →
        (db.update_item i d).1 =
          some { id := i, name := d.name, description := d.description, price := d.price } ∧
        ((db.update_item i d).2).get_item i =
          some { id := i, name := d.name, description := d.description, price := d.price }) := by
  refine ⟨?_, ?_, ?_⟩
  · intro r i d cur hg
    have hg2 : dictGet r.items i = some cur := hg
    refine ⟨?_, rfl, rfl, rfl, ?_, ?_, ?_⟩
    · simp [InMemoryRepository.update_item, hg2]
    · intro h
      simp [mergeDraft, h]
    · intro h
      simp [mergeDraft, h]
    · show dictGet ((r.update_item i d).2).items i = some (mergeDraft cur d)
      have hstate : ((r.update_item i d).2).items
          = dictSet r.items i (mergeDraft cur d) := by
        simp [InMemoryRepository.update_item, hg2]
      rw [hstate]
      exact dictGet_dictSet_self r.items i (mergeDraft cur d)
  · intro r i d cur hg
    have hg2 : dictGet r.store i = some cur := hg
    refine ⟨?_, rfl, rfl, rfl, ?_, ?_, ?_⟩
    · simp [RedisRepository.update_item, RedisRepository.get_item, hg2]
    · intro h
      simp [mergeDraft, h]
    · intro h
      simp [mergeDraft, h]
    · have hstate : ((r.update_item i d).2).store
          = dictSet r.store i (mergeDraft cur d) := by
        simp [RedisRepository.update_item, RedisRepository.get_item, hg2]
      show dictGet ((r.update_item i d).2).store i = some (mergeDraft cur d)
      rw [hstate]
      exact dictGet_dictSet_self r.store i (mergeDraft cur d)
  · intro db i d cur hg
    have hhas := sqlHas_of_get_some hg
    have hpos : 0 < (db.rows.filter (fun row => row.id == i)).length :=
      (filterCountPos db.rows _).2 hhas
    have hfind := find_overwrite db.rows i d hhas
    constructor
    · simp only [SQLiteRepository.update_item]
      rw [if_pos hpos]
      exact hfind
    · have hstate : ((db.update_item i d).2).rows
          = db.rows.map (fun row => if row.id == i then
              { id := row.id, name := d.name, description := d.description,
                price := d.price }
            else row) := sql_update_rows db i d
      show ((db.update_item i d).2).rows.find? (fun row => row.id == i)
          = some { id := i, name := d.name, description := d.description, price := d.price }
      rw [hstate]
      exact hfind

/-- C1 witness: a concrete in-memory partial update — the unset
description survives, the set fields change, and get sees the merge. -/
theorem claim_C1_witness :
    (InMemoryRepository.update_item ⟨[(1, ⟨1, "Original", some "Old desc", 50⟩)], 2⟩
        1 ⟨"Updated", none, 150, false⟩).1
      = some ⟨1, "Updated", some "Old desc", 150⟩ ∧
    ((InMemoryRepository.update_item ⟨[(1, ⟨1, "Original", some "Old desc", 50⟩)], 2⟩
        1 ⟨"Updated", none, 150, false⟩).2).get_item 1
      = some ⟨1, "Updated", some "Old desc", 150⟩ := by
  have h := claim_C1_partial_update_amended.1
    ⟨[(1, ⟨1, "Original", some "Old desc", 50⟩)], 2⟩ 1
    ⟨"Updated", none, 150, false⟩ ⟨1, "Original", some "Old desc", 50⟩ (by decide)
  exact ⟨h.1, h.2.2.2.2.2.2⟩

/-- C4 counterexample: the SQLite backend interprets the name filter as a
SQL LIKE pattern, so the filter "_" (a LIKE single-character wildcard)
returns an item named "Abc" even though "_" is not a case-insensitive
substring of "Abc" — the listing is not "exactly the items whose name
contains the filter string". -/
theorem claim_C4_counterexample :
    SQLiteRepository.list_items ⟨[⟨1, "Abc", none, 10⟩], 1⟩ (some "_") none
        = [⟨1, "Abc", none, 10⟩] ∧
      containsSub (strLower "_").data (strLower "Abc").data = false :=
  ⟨by decide, by decide⟩

/-- C4 (amended): the in-memory and Redis backends return exactly the
stored items whose name contains the filter case-insensitively as a
substring and whose price passes the (caller-validated, > 0) minimum
price, with absent filters imposing no constraint.  The relational
backend passes the filter to SQL LIKE, so the same characterization holds
for it provided the filter contains no LIKE wildcard character ('%' or
'_'); a filter with wildcards can match names not containing it. -/
theorem claim_C4_filtering_amended :
    (∀ (r : InMemoryRepository) (nf : Option String) (mp : Option ℚ),
      (mp = none ∨ ∃ m, mp = some m ∧ 0 < m) →
      ∀ x : Item, (x ∈ r.list_items nf mp ↔
        (∃ p ∈ r.items, p.2 = x) ∧ NameFilterOk nf x ∧ MinPriceOk mp x)) ∧
    (∀ (r : RedisRepository) (nf : Option String) (mp : Option ℚ),
      (mp = none ∨ ∃ m, mp = some m ∧ 0 < m) →
      ∀ x : Item, (x ∈ r.list_items nf mp ↔
        (∃ p ∈ r.store, p.2 = x) ∧ NameFilterOk nf x ∧ MinPriceOk mp x)) ∧
    (∀ (db : SQLiteRepository) (nf : Option String) (mp : Option ℚ),
      (mp = none ∨ ∃ m, mp = some m ∧ 0 < m) →
      (∀ f, nf = some f → NoLikeWildcards f) →
      ∀ x : Item, (x ∈ db.list_items nf mp ↔
        x ∈ db.rows ∧ NameFilterOk nf x ∧ MinPriceOk mp x)) := by
  refine ⟨?_, ?_, ?_⟩
  · intro r nf mp hmp x
    rw [mem_list_iff, matchName_iff, matchPrice_iff_ok hmp]
  · intro r nf mp hmp x
    rw [redis_mem_list_iff, matchName_iff, matchPrice_iff_ok hmp]
  · intro db nf mp hmp hw x
    rw [sql_mem_list_iff]
    have hro : sqliteRowOk nf mp x = true ↔ NameFilterOk nf x ∧ MinPriceOk mp x := by
      rw [sqliteRowOk_split, Bool.and_eq_true, sqliteRowOk_name_iff hw,
        sqliteRowOk_price_iff hmp]
    rw [hro]

/-- C4 witness: over items named Apple, Orange, Pineapple, the filter
"apple" keeps Apple (in-memory), drops Orange (in-memory), and keeps
Pineapple in the relational backend (where "apple" has no wildcard). -/
theorem claim_C4_witness :
    ((⟨1, "Apple", none, 10⟩ : Item) ∈ InMemoryRepository.list_items
        ⟨[(1, ⟨1, "Apple", none, 10⟩), (2, ⟨2, "Orange", none, 20⟩),
          (3, ⟨3, "Pineapple", none, 30⟩)], 4⟩ (some "apple") none) ∧
    ¬ ((⟨2, "Orange", none, 20⟩ : Item) ∈ InMemoryRepository.list_items
        ⟨[(1, ⟨1, "Apple", none, 10⟩), (2, ⟨2, "Orange", none, 20⟩),
          (3, ⟨3, "Pineapple", none, 30⟩)], 4⟩ (some "apple") none) ∧
    ((⟨3, "Pineapple", none, 30⟩ : Item) ∈ SQLiteRepository.list_items
        ⟨[⟨1, "Apple", none, 10⟩, ⟨2, "Orange", none, 20⟩,
          ⟨3, "Pineapple", none, 30⟩], 3⟩ (some "apple") none) := by
  refine ⟨?_, ?_, ?_⟩
  · exact (claim_C4_filtering_amended.1 _ (some "apple") none (Or.inl rfl) _).2
      ⟨⟨(1, ⟨1, "Apple", none, 10⟩), by decide, rfl⟩,
        fun f hf => by cases hf; decide,
        fun m hm => Option.noConfusion hm⟩
  · intro h
    have h2 := (claim_C4_filtering_amended.1 _ (some "apple") none
      (Or.inl rfl) _).1 h
    have h3 := h2.2.1 "apple" rfl
    exact absurd h3 (by decide)
  · exact (claim_C4_filtering_amended.2.2 _ (some "apple") none (Or.inl rfl)
      (fun f hf => by cases hf; unfold NoLikeWildcards; decide) _).2
      ⟨by decide, fun f hf => by cases hf; decide,
        fun m hm => Option.noConfusion hm⟩

/-- C3: ids are handed out by a strictly increasing allocator in every
backend (the ids returned by the create calls of any trace from a fresh
instance are pairwise increasing, so never reused, even across deletes);
an update never changes any stored record's key or id field, and a delete
never decrements the allocation counter. -/
theorem claim_C3_id_allocation :
    (∀ ops : List Op,
       (InMemoryRepository.init.createdIds ops).Pairwise (· < ·)) ∧
    (∀ ops : List Op,
       (RedisRepository.init.createdIds ops).Pairwise (· < ·)) ∧
    (∀ ops : List Op,
       (SQLiteRepository.init.createdIds ops).Pairwise (· < ·)) ∧
    (∀ (ops : List Op) (i : ℕ) (d : ItemCreate),
       (((InMemoryRepository.init.runOps ops).update_item i d).2).items.map
           (fun p => (p.1, p.2.id))
         = (InMemoryRepository.init.runOps ops).items.map
             (fun p => (p.1, p.2.id))) ∧
    (∀ (ops : List Op) (i : ℕ) (d : ItemCreate),
       (((RedisRepository.init.runOps ops).update_item i d).2).store.map
           (fun p => (p.1, p.2.id))
         = (RedisRepository.init.runOps ops).store.map
             (fun p => (p.1, p.2.id))) ∧
    (∀ (db : SQLiteRepository) (i : ℕ) (d : ItemCreate),
       ((db.update_item i d).2).rows.map Item.id = db.rows.map Item.id) ∧
    (∀ (r : InMemoryRepository) (i : ℕ),
       ((r.delete_item i).2).next_id = r.next_id) ∧
    (∀ (r : RedisRepository) (i : ℕ),
       ((r.delete_item i).2).next_item_id = r.next_item_id) ∧
    (∀ (db : SQLiteRepository) (i : ℕ), ((db.delete_item i).2).seq = db.seq) := by
  refine ⟨?_, ?_, ?_, ?_, ?_, ?_, ?_, ?_, ?_⟩
  · intro ops
    exact (createdIds_spec ops _).2
  · intro ops
    exact (redis_createdIds_spec ops _).2
  · intro ops
    exact (sql_createdIds_spec ops _).2
  · intro ops i d
    have hinv : memInv (InMemoryRepository.init.runOps ops) :=
      memInv_runOps ops _ memInv_init
    cases hg : dictGet (InMemoryRepository.init.runOps ops).items i with
    | none =>
      have hsame : ((InMemoryRepository.init.runOps ops).update_item i d).2
          = InMemoryRepository.init.runOps ops := by
        simp [InMemoryRepository.update_item, hg]
      rw [hsame]
    | some cur =>
      have hhas := dictHas_of_dictGet_some hg
      rcases dictGet_key_lt hinv hg with ⟨hid, _⟩
      have hstate : (((InMemoryRepository.init.runOps ops).update_item i d).2).items
          = dictSet (InMemoryRepository.init.runOps ops).items i
              (mergeDraft cur d) := by
        simp [InMemoryRepository.update_item, hg]
      rw [hstate]
      exact dictSet_pairs hhas hid (fun p hp => (hinv p hp).1)
  · intro ops i d
    have hinv : redisInv (RedisRepository.init.runOps ops) :=
      redisInv_runOps ops _ redisInv_init
    cases hg : dictGet (RedisRepository.init.runOps ops).store i with
    | none =>
      have hsame : ((RedisRepository.init.runOps ops).update_item i d).2
          = RedisRepository.init.runOps ops := by
        simp [RedisRepository.update_item, RedisRepository.get_item, hg]
      rw [hsame]
    | some cur =>
      have hhas := dictHas_of_dictGet_some hg
      rcases redisGet_key_le hinv hg with ⟨hid, _⟩
      have hstate : (((RedisRepository.init.runOps ops).update_item i d).2).store
          = dictSet (RedisRepository.init.runOps ops).store i
              (mergeDraft cur d) := by
        simp [RedisRepository.update_item, RedisRepository.get_item, hg]
      rw [hstate]
      exact dictSet_pairs hhas hid (fun p hp => (hinv p hp).1)
  · intro db i d
    exact sql_update_ids db i d
  · intro r i
    by_cases hb : dictHas r.items i = true
    · simp [InMemoryRepository.delete_item, hb]
    · simp [InMemoryRepository.delete_item, hb]
  · intro r i
    rfl
  · intro db i
    rfl

/-- C7: in every backend, create returns an Item carrying exactly the
draft's non-id fields under a fresh id (never handed out before and not
currently stored), an immediately following get on that id returns the
created Item, get on an id never created in the instance's lifetime
returns NotFound, and once a present id is deleted, get on it returns
NotFound for the rest of any continuation of the trace. -/
theorem claim_C7_create_get_roundtrip :
    (∀ (r : InMemoryRepository) (d : ItemCreate),
       ((r.create_item d).1).name = d.name ∧
       ((r.create_item d).1).description = d.description ∧
       ((r.create_item d).1).price = d.price) ∧
    (∀ (ops : List Op) (d : ItemCreate),
       (((InMemoryRepository.init.runOps ops).create_item d).1).id
           ∉ InMemoryRepository.init.createdIds ops ∧
       dictHas (InMemoryRepository.init.runOps ops).items
           (((InMemoryRepository.init.runOps ops).create_item d).1).id = false) ∧
    (∀ (r : InMemoryRepository) (d : ItemCreate),
       ((r.create_item d).2).get_item ((r.create_item d).1).id
         = some (r.create_item d).1) ∧
    (∀ (ops : List Op) (i : ℕ),
       i ∉ InMemoryRepository.init.createdIds ops →
       (InMemoryRepository.init.runOps ops).get_item i = none) ∧
    (∀ (ops ops2 : List Op) (i : ℕ),
       ((InMemoryRepository.init.runOps ops).delete_item i).1 = true →
       ((((InMemoryRepository.init.runOps ops).delete_item i).2).runOps ops2).get_item i
         = none) ∧
    (∀ (r : RedisRepository) (d : ItemCreate),
       ((r.create_item d).1).name = d.name ∧
       ((r.create_item d).1).description = d.description ∧
       ((r.create_item d).1).price = d.price) ∧
    (∀ (ops : List Op) (d : ItemCreate),
       (((RedisRepository.init.runOps ops).create_item d).1).id
           ∉ RedisRepository.init.createdIds ops ∧
       dictHas (RedisRepository.init.runOps ops).store
           (((RedisRepository.init.runOps ops).create_item d).1).id = false) ∧
    (∀ (r : RedisRepository) (d : ItemCreate),
       ((r.create_item d).2).get_item ((r.create_item d).1).id
         = some (r.create_item d).1) ∧
    (∀ (ops : List Op) (i : ℕ),
       i ∉ RedisRepository.init.createdIds ops →
       (RedisRepository.init.runOps ops).get_item i = none) ∧
    (∀ (ops ops2 : List Op) (i : ℕ),
       ((RedisRepository.init.runOps ops).delete_item i).1 = true →
       ((((RedisRepository.init.runOps ops).delete_item i).2).runOps ops2).get_item i
         = none) ∧
    (∀ (db : SQLiteRepository) (d : ItemCreate),
       ((db.create_item d).1).name = d.name ∧
       ((db.create_item d).1).description = d.description ∧
       ((db.create_item d).1).price = d.price) ∧
    (∀ (ops : List Op) (d : ItemCreate),
       (((SQLiteRepository.init.runOps ops).create_item d).1).id
           ∉ SQLiteRepository.init.createdIds ops ∧
       sqlHas (SQLiteRepository.init.runOps ops).rows
           (((SQLiteRepository.init.runOps ops).create_item d).1).id = false) ∧
    (∀ (ops : List Op) (d : ItemCreate),
       (((SQLiteRepository.init.runOps ops).create_item d).2).get_item
           (((SQLiteRepository.init.runOps ops).create_item d).1).id
         = some ((SQLiteRepository.init.runOps ops).create_item d).1) ∧
    (∀ (ops : List Op) (i : ℕ),
       i ∉ SQLiteRepository.init.createdIds ops →
       (SQLiteRepository.init.runOps ops).get_item i = none) ∧
    (∀ (ops ops2 : List Op) (i : ℕ),
       ((SQLiteRepository.init.runOps ops).delete_item i).1 = true →
       ((((SQLiteRepository.init.runOps ops).delete_item i).2).runOps ops2).get_item i
         = none) := by
  refine ⟨?_, ?_, ?_, ?_, ?_, ?_, ?_, ?_, ?_, ?_, ?_, ?_, ?_, ?_, ?_⟩
  · intro r d
    exact ⟨rfl, rfl, rfl⟩
  · intro ops d
    have hinv : memInv (InMemoryRepository.init.runOps ops) :=
      memInv_runOps ops _ memInv_init
    constructor
    · intro hmem
      have hb := ((createdIds_spec ops InMemoryRepository.init).1 _ hmem).2
      exact absurd hb (Nat.lt_irrefl _)
    · exact not_dictHas_of_lt (fun p hp => (hinv p hp).2)
  · intro r d
    exact dictGet_dictSet_self r.items r.next_id (itemOfDraft r.next_id d)
  · intro ops i hni
    cases hg : (InMemoryRepository.init.runOps ops).get_item i with
    | none => rfl
    | some v =>
      have hhas : dictHas (InMemoryRepository.init.runOps ops).items i = true :=
        dictHas_of_dictGet_some hg
      rcases has_runOps ops _ i hhas with h1 | h1
      · simp [InMemoryRepository.init, dictHas] at h1
      · exact absurd h1 hni
  · intro ops ops2 i hdel
    have hinv : memInv (InMemoryRepository.init.runOps ops) :=
      memInv_runOps ops _ memInv_init
    have hhas : dictHas (InMemoryRepository.init.runOps ops).items i = true := by
      cases hb : dictHas (InMemoryRepository.init.runOps ops).items i with
      | true => rfl
      | false =>
        rw [show ((InMemoryRepository.init.runOps ops).delete_item i).1 = false
          from by simp [InMemoryRepository.delete_item, hb]] at hdel
        cases hdel
    have hlt : i < (InMemoryRepository.init.runOps ops).next_id := by
      rcases (dictHas_iff _ i).1 hhas with ⟨p, hp, hk⟩
      exact hk ▸ (hinv p hp).2
    have hstate : ((InMemoryRepository.init.runOps ops).delete_item i).2
        = { InMemoryRepository.init.runOps ops with
            items := dictDel (InMemoryRepository.init.runOps ops).items i } := by
      simp [InMemoryRepository.delete_item, hhas]
    rw [hstate]
    have habs := dictHas_dictDel_self (InMemoryRepository.init.runOps ops).items i
    exact (dictGet_none_iff _ _).2 (absent_stays ops2 _ i hlt habs)
  · intro r d
    exact ⟨rfl, rfl, rfl⟩
  · intro ops d
    have hinv : redisInv (RedisRepository.init.runOps ops) :=
      redisInv_runOps ops _ redisInv_init
    constructor
    · intro hmem
      have hb := ((redis_createdIds_spec ops RedisRepository.init).1 _ hmem).2
      exact absurd hb (Nat.not_succ_le_self _)
    · exact not_dictHas_of_lt (fun p hp => Nat.lt_succ_of_le (hinv p hp).2)
  · intro r d
    exact dictGet_dictSet_self r.store (r.next_item_id + 1)
      (itemOfDraft (r.next_item_id + 1) d)
  · intro ops i hni
    cases hg : (RedisRepository.init.runOps ops).get_item i with
    | none => rfl
    | some v =>
      have hhas : dictHas (RedisRepository.init.runOps ops).store i = true :=
        dictHas_of_dictGet_some hg
      rcases redis_has_runOps ops _ i hhas with h1 | h1
      · simp [RedisRepository.init, dictHas] at h1
      · exact absurd h1 hni
  · intro ops ops2 i hdel
    have hinv : redisInv (RedisRepository.init.runOps ops) :=
      redisInv_runOps ops _ redisInv_init
    have hhas : dictHas (RedisRepository.init.runOps ops).store i = true := hdel
    have hle : i ≤ (RedisRepository.init.runOps ops).next_item_id := by
      rcases (dictHas_iff _ i).1 hhas with ⟨p, hp, hk⟩
      exact hk ▸ (hinv p hp).2
    have habs := dictHas_dictDel_self (RedisRepository.init.runOps ops).store i
    exact (dictGet_none_iff _ _).2 (redis_absent_stays ops2 _ i hle habs)
  · intro db d
    exact ⟨rfl, rfl, rfl⟩
  · intro ops d
    have hinv : sqlInv (SQLiteRepository.init.runOps ops) :=
      sqlInv_runOps ops _ sqlInv_init
    constructor
    · intro hmem
      have hb := ((sql_createdIds_spec ops SQLiteRepository.init).1 _ hmem).2
      exact absurd hb (Nat.not_succ_le_self _)
    · exact not_sqlHas_succ hinv
  · intro ops d
    exact sql_get_after_create (sqlInv_runOps ops _ sqlInv_init) d
  · intro ops i hni
    cases hg : (SQLiteRepository.init.runOps ops).get_item i with
    | none => rfl
    | some v =>
      have hhas : sqlHas (SQLiteRepository.init.runOps ops).rows i = true :=
        sqlHas_of_get_some hg
      rcases sql_has_runOps ops _ i hhas with h1 | h1
      · simp [SQLiteRepository.init, sqlHas] at h1
      · exact absurd h1 hni
  · intro ops ops2 i hdel
    have hinv : sqlInv (SQLiteRepository.init.runOps ops) :=
      sqlInv_runOps ops _ sqlInv_init
    have hhas : sqlHas (SQLiteRepository.init.runOps ops).rows i = true := by
      have hd : decide (0 < ((SQLiteRepository.init.runOps ops).rows.filter
          (fun row => row.id == i)).length) = true := hdel
      rw [sql_rowcount_decide] at hd
      exact hd
    have hle : i ≤ (SQLiteRepository.init.runOps ops).seq := by
      rcases (sqlHas_iff _ i).1 hhas with ⟨row, hrow, hk⟩
      exact hk ▸ hinv row hrow
    have habs := sqlHas_del_self (SQLiteRepository.init.runOps ops).rows i
    exact (sqlGet_none_iff _ _).2 (sql_absent_stays ops2 _ i hle habs)

/-- C7 witness: get on the never-created id 1 in a fresh instance is
NotFound, and after creating one item and deleting id 1, get on id 1 is
NotFound — in all three backends. -/
theorem claim_C7_witness :
    (InMemoryRepository.init.runOps []).get_item 1 = none ∧
    ((((InMemoryRepository.init.runOps
          [Op.create ⟨"Test Item", some "d", 10, true⟩]).delete_item 1).2).runOps
        []).get_item 1 = none ∧
    (RedisRepository.init.runOps []).get_item 1 = none ∧
    ((((RedisRepository.init.runOps
          [Op.create ⟨"Test Item", some "d", 10, true⟩]).delete_item 1).2).runOps
        []).get_item 1 = none ∧
    (SQLiteRepository.init.runOps []).get_item 1 = none ∧
    ((((SQLiteRepository.init.runOps
          [Op.create ⟨"Test Item", some "d", 10, true⟩]).delete_item 1).2).runOps
        []).get_item 1 = none := by
  refine ⟨?_, ?_, ?_, ?_, ?_, ?_⟩
  · exact claim_C7_create_get_roundtrip.2.2.2.1 [] 1 (by decide)
  · exact claim_C7_create_get_roundtrip.2.2.2.2.1
      [Op.create ⟨"Test Item", some "d", 10, true⟩] [] 1 (by decide)
  · exact claim_C7_create_get_roundtrip.2.2.2.2.2.2.2.2.1 [] 1 (by decide)
  · exact claim_C7_create_get_roundtrip.2.2.2.2.2.2.2.2.2.1
      [Op.create ⟨"Test Item", some "d", 10, true⟩] [] 1 (by decide)
  · exact claim_C7_create_get_roundtrip.2.2.2.2.2.2.2.2.2.2.2.2.2.1 [] 1 (by decide)
  · exact claim_C7_create_get_roundtrip.2.2.2.2.2.2.2.2.2.2.2.2.2.2
      [Op.create ⟨"Test Item", some "d", 10, true⟩] [] 1 (by decide)
